import Mathlib

/- Verification development for the YouTube-Video-Summarizer script
   (src/main.py).  Python strings are modelled as Lean `String` /
   `List Char`; the library helpers the script calls (`textwrap.wrap`,
   `urllib.parse`, the reportlab cursor arithmetic) are embedded
   faithfully below, and then the script's own functions
   (`extract_video_id`, `get_transcript`, `summarize_text`, `save_pdf`)
   are defined on top of them. -/

namespace YTS

/-- Characters of Python `textwrap`'s whitespace string `'\t\n\x0b\x0c\r '`. -/
def pyWsChar (c : Char) : Bool :=
  c = ' ' || c = '\t' || c = '\n' || c.toNat = 0x0b || c.toNat = 0x0c || c = '\r'

/-- Characters that Python `str.strip()` / `str.isspace()` treat as whitespace
(the Unicode whitespace set used by `str`). -/
def pyStrWsChar (c : Char) : Bool :=
  pyWsChar c || (0x1c ≤ c.toNat && c.toNat ≤ 0x1f) || c.toNat = 0x85 || c.toNat = 0xa0 ||
  c.toNat = 0x1680 || (0x2000 ≤ c.toNat && c.toNat ≤ 0x200a) ||
  c.toNat = 0x2028 || c.toNat = 0x2029 || c.toNat = 0x202f || c.toNat = 0x205f ||
  c.toNat = 0x3000

/-- Python `str.strip()` on a character list. -/
def stripChars (l : List Char) : List Char :=
  ((l.dropWhile pyStrWsChar).reverse.dropWhile pyStrWsChar).reverse

/-- Python `str.strip()` on strings (as in `response.text.strip()`). -/
def pyStrip (s : String) : String := ⟨stripChars s.data⟩

/-- Python `str.expandtabs(8)` starting at column `col` (tab stop every 8
columns, column count reset at CR and LF). -/
def expandTabs : Nat → List Char → List Char
  | _, [] => []
  | col, c :: cs =>
    if c = '\t' then
      List.replicate (8 - col % 8) ' ' ++ expandTabs (col + (8 - col % 8)) cs
    else if c = '\n' || c = '\r' then c :: expandTabs 0 cs
    else c :: expandTabs (col + 1) cs

/-- `TextWrapper._munge_whitespace`: expand tabs, then turn every character of
the textwrap whitespace set into a space. -/
def munge (l : List Char) : List Char :=
  (expandTabs 0 l).map fun c => if pyWsChar c then ' ' else c

/-- ASCII model of the regex class `\w` (`[a-zA-Z0-9_]`). -/
def isWordChar (c : Char) : Bool := c.isAlphanum || c = '_'

/-- ASCII model of `textwrap`'s `letter` class `[^\d\W]`. -/
def isLt (c : Char) : Bool := c.isAlpha || c = '_'

/-- The class `word_punct` (`[\w!"'&.,?]`) of `textwrap.TextWrapper.wordsep_re`. -/
def isWp (c : Char) : Bool :=
  isWordChar c || c = '!' || c = '"' || c = '\'' || c = '&' || c = '.' || c = ',' || c = '?'

/-- Test the character at index `i` of `l`, `false` when out of range. -/
def testNth (l : List Char) (i : Nat) (p : Char → Bool) : Bool :=
  (l[i]?).elim false p

/-- The hyphenated-word break of `wordsep_re`: a break is allowed after
`letter letter -` or `letter - letter -` and before `letter -? letter`.
`rev` is the reversed text before the current position, `s` the text from
the current position on. -/
def hyphenStop (rev s : List Char) : Bool :=
  testNth rev 0 (· = '-') &&
  ((testNth rev 1 isLt && testNth rev 2 isLt) ||
   (testNth rev 1 isLt && testNth rev 2 (· = '-') && testNth rev 3 isLt)) &&
  testNth s 0 isLt &&
  (testNth s 1 isLt || (testNth s 1 (· = '-') && testNth s 2 isLt))

/-- The condition `(?<=word_punct)(?=-{2,}\w)` of `wordsep_re`: an em-dash run
followed by a word character starts at `s`, after a word-punct character. -/
def emDashAhead (rev s : List Char) : Bool :=
  testNth rev 0 isWp && testNth s 0 (· = '-') && testNth s 1 (· = '-') &&
  testNth (s.dropWhile (· = '-')) 0 isWordChar

/-- Stop condition for a word chunk of `wordsep_re` at the current position
(end of text or whitespace ahead, allowed hyphen break, or em-dash ahead). -/
def wordStop (rev s : List Char) : Bool :=
  (match s with
   | [] => true
   | c :: _ => pyWsChar c) ||
  hyphenStop rev s || emDashAhead rev s

/-- Scan the rest of a word chunk (`nws+?` with the stop alternatives of
`wordsep_re`); `acc` holds the reversed part consumed so far.  Returns the
finished chunk and the rest of the text. -/
def wordScanGo (rev acc : List Char) : List Char → (List Char × List Char)
  | [] => (acc.reverse, [])
  | c :: cs =>
    if wordStop rev (c :: cs) then (acc.reverse, c :: cs)
    else wordScanGo (c :: rev) (c :: acc) cs

/-- One step of `wordsep_re.split`: a whitespace run, a standalone em-dash
run, or a word chunk.  Fueled recursion; `rev` is the reversed text already
split off. -/
def wsplitGo : Nat → List Char → List Char → List (List Char)
  | 0, _, _ => []
  | _ + 1, _, [] => []
  | fuel + 1, rev, c :: cs =>
    if pyWsChar c then
      (c :: cs).takeWhile pyWsChar
        :: wsplitGo fuel (((c :: cs).takeWhile pyWsChar).reverse ++ rev)
            ((c :: cs).dropWhile pyWsChar)
    else if emDashAhead rev (c :: cs) then
      (c :: cs).takeWhile (· = '-')
        :: wsplitGo fuel (((c :: cs).takeWhile (· = '-')).reverse ++ rev)
            ((c :: cs).dropWhile (· = '-'))
    else
      (wordScanGo (c :: rev) [c] cs).1
        :: wsplitGo fuel ((wordScanGo (c :: rev) [c] cs).1.reverse ++ rev)
            (wordScanGo (c :: rev) [c] cs).2

/-- `TextWrapper._split` on munged text (the produced chunks are nonempty, so
the `[c for c in chunks if c]` filter of the source keeps all of them). -/
def wsplit (l : List Char) : List (List Char) := wsplitGo (l.length + 1) [] l

/-- The greedy inner loop of `TextWrapper._wrap_chunks`: take chunks while the
current line length stays within `width`. -/
def greedyTake (width : Nat) : Nat → List (List Char) → (List (List Char) × List (List Char))
  | _, [] => ([], [])
  | cur, t :: ts =>
    if cur + t.length ≤ width then
      let p := greedyTake width (cur + t.length) ts
      (t :: p.1, p.2)
    else ([], t :: ts)

/-- Python `chunk.strip() == ''` (drop-whitespace test of `_wrap_chunks`). -/
def isBlankTok (t : List Char) : Bool := t.all pyStrWsChar

/-- Index of the last `'-'` in `l`, as Python `l.rfind('-')` (`none` when
absent). -/
def rfindHyphen (l : List Char) : Option Nat :=
  (List.range l.length).reverse.find? fun i => testNth l i (· = '-')

/-- The index `end` computed by `TextWrapper._handle_long_word` when
`break_long_words` is true (with the default `break_on_hyphens = True`). -/
def longWordEnd (chunk : List Char) (spaceLeft : Nat) : Nat :=
  if spaceLeft < chunk.length then
    match rfindHyphen (chunk.take spaceLeft) with
    | some h => if 0 < h && (chunk.take h).any (· ≠ '-') then h + 1 else spaceLeft
    | none => spaceLeft
  else spaceLeft

/-- Sum of chunk lengths plus chunk count: fuel bound for `_wrap_chunks`
(every iteration of the outer loop strictly decreases it). -/
def toksMeasure (toks : List (List Char)) : Nat :=
  (toks.map List.length).sum + toks.length

/-- `_handle_long_word`, applied when the next chunk is longer than the full
width: with `break_long_words` a piece of it (up to the space left, backed
off to a hyphen break) joins the current line; without, the whole chunk is
taken only onto an empty line, otherwise it waits for the next line. -/
def longAdjust (blw : Bool) (width : Nat) (p : List (List Char) × List (List Char)) :
    List (List Char) × List (List Char) :=
  match p.2 with
  | [] => p
  | t :: ts =>
    if width < t.length then
      if blw then
        let spaceLeft := if width < 1 then 1 else width - (p.1.map List.length).sum
        let e := longWordEnd t spaceLeft
        (p.1 ++ [t.take e], t.drop e :: ts)
      else if p.1.isEmpty then (p.1 ++ [t], ts)
      else p
    else p

/-- The drop of one trailing blank chunk before a line is emitted. -/
def trailingDrop (q1 : List (List Char)) : List (List Char) :=
  match q1.getLast? with
  | some lst => if isBlankTok lst then q1.dropLast else q1
  | none => q1

/-- One iteration of the outer loop of `TextWrapper._wrap_chunks` after the
leading-blank drop: greedy fill, `_handle_long_word` when the next chunk
exceeds the full width, drop of one trailing blank chunk of the line, and
emission of the joined line when anything is left.  Returns the emitted
line (if any) and the remaining chunks. -/
def wrapStep (blw : Bool) (width : Nat) (chunks : List (List Char)) :
    Option (List Char) × List (List Char) :=
  let q := longAdjust blw width (greedyTake width 0 chunks)
  let cur := trailingDrop q.1
  (if cur.isEmpty then none else some cur.flatten, q.2)

/-- `TextWrapper._wrap_chunks` with `drop_whitespace = True`, empty indents
and no `max_lines`, parameterised by `break_long_words` (`blw`); `emitted`
records whether a line was produced yet (Python's `lines` being nonempty).
Fueled recursion. -/
def wrapGo (blw : Bool) (width : Nat) : Nat → Bool → List (List Char) → List (List Char)
  | 0, _, _ => []
  | _ + 1, _, [] => []
  | fuel + 1, emitted, t0 :: ts0 =>
    let chunks := if emitted && isBlankTok t0 then ts0 else t0 :: ts0
    match chunks with
    | [] => []
    | c0 :: cs0 =>
      let r := wrapStep blw width (c0 :: cs0)
      match r.1 with
      | some line => line :: wrapGo blw width fuel true r.2
      | none => wrapGo blw width fuel emitted r.2

/-- The body of one outer-loop pass of `wrapGo` after the leading-blank drop
chose the chunk list (an unfolding helper for proofs about `wrapGo`). -/
def wrapIter (blw : Bool) (width fuel : Nat) (emitted : Bool) :
    List (List Char) → List (List Char)
  | [] => []
  | c0 :: cs0 =>
    match (wrapStep blw width (c0 :: cs0)).1 with
    | some line => line :: wrapGo blw width fuel true (wrapStep blw width (c0 :: cs0)).2
    | none => wrapGo blw width fuel emitted (wrapStep blw width (c0 :: cs0)).2

/-- `textwrap.wrap(text, width, break_long_words=blw)` with all other options
at their defaults, on character lists. -/
def pyWrapList (width : Nat) (blw : Bool) (l : List Char) : List (List Char) :=
  let toks := wsplit (munge l)
  wrapGo blw width (toksMeasure toks + 1) false toks

/-- `textwrap.wrap` on strings. -/
def pyWrap (width : Nat) (blw : Bool) (s : String) : List String :=
  (pyWrapList width blw s.data).map List.asString

/-- Outcome of one `model.generate_content` call: `.ok` carries
`response.text`, `.error` carries the exception's message (`str(e)`).  Any
failure inside the `try` block, including one raised by `response.text`
itself, is a single `.error`. -/
def GenOracle : Type := String → Except String String

/-- The direct-mode prompt f-string of `summarize_text` (exact bytes,
including the indentation of the triple-quoted literal). -/
def directPrompt (text : String) : String :=
  "\n        Summarize the following transcript into a single well-structured report for the entire video:\n\n        - Combine all details into ONE report.\n        - Do NOT include timestamps.\n        - Use sections: Introduction, Main Points (with subheadings), and Key Takeaways.\n        - Make it concise, clear, and professional for note-taking or study purposes.\n\n        Transcript:\n        "
  ++ text ++ "\n        "

/-- The per-chunk prompt f-string of `summarize_text` (exact bytes). -/
def chunkPrompt (chunk : String) : String :=
  "\n            Summarize this part of the transcript into short, clear bullet points (max 5):\n            "
  ++ chunk ++ "\n            "

/-- The combination prompt f-string of `summarize_text` (exact bytes). -/
def finalPrompt (notes : String) : String :=
  "\n        Combine the following notes into a single well-structured report:\n        - Sections: Introduction, Main Points, Key Takeaways\n        - Remove repetition\n        - Do NOT include timestamps\n\n        Notes:\n        "
  ++ notes ++ "\n        "

/-- The chunk list of `summarize_text`'s long branch:
`textwrap.wrap(text, width=chunk_size, break_long_words=False)`. -/
def summarizeChunks (chunk_size : Nat) (text : String) : List String :=
  pyWrap chunk_size false text

/-- The `chunk_summaries` list built by the `for` loop of `summarize_text`:
per chunk, the stripped response on success and the literal
`"Error summarizing this chunk."` on failure. -/
def chunkSummaries (gen : GenOracle) (chunk_size : Nat) (text : String) : List String :=
  (summarizeChunks chunk_size text).map fun chunk =>
    match gen (chunkPrompt chunk) with
    | .ok response => pyStrip response
    | .error _ => "Error summarizing this chunk."

/-- `combined_notes = "\n".join(chunk_summaries)`. -/
def combinedNotes (gen : GenOracle) (chunk_size : Nat) (text : String) : String :=
  String.intercalate "\n" (chunkSummaries gen chunk_size text)

/-- `summarize_text(text, chunk_size=2000)` of src/main.py, with the
generation model abstracted as the oracle `gen`. -/
def summarize_text (gen : GenOracle) (text : String) (chunk_size : Nat := 2000) : String :=
  if text.length ≤ chunk_size then
    match gen (directPrompt text) with
    | .ok response => "### Video Summary Report\n\n" ++ pyStrip response
    | .error e => "❌ Error generating summary: " ++ e
  else
    match gen (finalPrompt (combinedNotes gen chunk_size text)) with
    | .ok response => "### Video Summary Report\n\n" ++ pyStrip response
    | .error e => "❌ Error combining summaries: " ++ e

/-- The sequence of prompts `summarize_text` sends to `model.generate_content`,
in call order: one direct prompt in the short branch; one prompt per chunk
followed by the single combination prompt in the long branch. -/
def summarizeCalls (gen : GenOracle) (text : String) (chunk_size : Nat := 2000) : List String :=
  if text.length ≤ chunk_size then [directPrompt text]
  else (summarizeChunks chunk_size text).map chunkPrompt
       ++ [finalPrompt (combinedNotes gen chunk_size text)]

/-- Outcome of `YouTubeTranscriptApi.get_transcript`: a list of caption
entries (their `'text'` fields), or one of the exceptions the source
catches. -/
inductive ProviderResult where
  | entries (texts : List String)
  | transcriptsDisabled
  | noTranscriptFound
  | otherFailure (e : String)

/-- `get_transcript` of src/main.py with the provider call abstracted: joins
entry texts with newlines; both catch arms return `None` (the second also
shows an informational message, which has no further effect). -/
def get_transcript : ProviderResult → Option String
  | .entries ts => some (String.intercalate "\n" ts)
  | .transcriptsDisabled => none
  | .noTranscriptFound => none
  | .otherFailure _ => none

/-- Python's substring test `sub in s`. -/
def hasSub (sub : List Char) : List Char → Bool
  | [] => sub.isEmpty
  | c :: cs => sub.isPrefixOf (c :: cs) || hasSub sub cs

/-- Python `s.split(sep)` for a one-character separator (empty parts kept;
the result is never empty). -/
def splitChar (sep : Char) : List Char → List (List Char)
  | [] => [[]]
  | c :: cs =>
    let r := splitChar sep cs
    if c = sep then [] :: r
    else
      match r with
      | t :: ts => (c :: t) :: ts
      | [] => [[c]]

/-- Python `text.split('\n')` on strings (via the character-level split). -/
def pySplitNl (s : String) : List String := (splitChar '\n' s.data).map List.asString

/-- State of the reportlab canvas in `save_pdf`: finished pages, draws of the
current page (cursor position paired with the drawn text), and the cursor
`y`.  `letter` is `(612.0, 792.0)`; all cursor values reached are integers,
so `Int` models the float arithmetic exactly. -/
def PdfState : Type := List (List (Int × String)) × List (Int × String) × Int

/-- The body of the inner loop of `save_pdf`: `c.drawString(50, y, wline)`,
`y -= 15`, and on `y < 50` a `c.showPage()` with `y = height - 50`. -/
def pdfStep (st : PdfState) (wline : String) : PdfState :=
  let cur := st.2.1 ++ [(st.2.2, wline)]
  let y := st.2.2 - 15
  if y < 50 then (st.1 ++ [cur], [], 792 - 50) else (st.1, cur, y)

/-- Canvas state right before the loop of `save_pdf`: the bold title drawn at
`(50, height - 50)` on page one, and `y = height - 70`. -/
def pdfInit (title : String) : PdfState := ([], [(792 - 50, title)], 792 - 70)

/-- `save_pdf` of src/main.py, modelled as the list of rendered pages (each a
list of cursor/text draws): for each line of `summary_text.split('\n')`,
each line of `textwrap.wrap(line, 100)` is drawn and the cursor advanced.
`c.save()` emits the last page only when something was drawn on it.  The
file path plumbing is outside the model. -/
def save_pdf (title summary_text : String) : List (List (Int × String)) :=
  let st := (pySplitNl summary_text).foldl
    (fun st line => (pyWrap 100 true line).foldl pdfStep st) (pdfInit title)
  st.1 ++ (if st.2.1.isEmpty then [] else [st.2.1])

/-- WHATWG C0-control-or-space class stripped from the start of a URL by
`urllib.parse.urlsplit`. -/
def whatwgC0Space (c : Char) : Bool := c.toNat ≤ 0x20

/-- `urlsplit` removes every tab, CR and LF from the URL. -/
def removeUnsafeUrlBytes (l : List Char) : List Char :=
  l.filter fun c => !(c = '\t' || c = '\r' || c = '\n')

/-- The `scheme_chars` class of `urllib.parse`. -/
def schemeChar (c : Char) : Bool := c.isAlphanum || c = '+' || c = '-' || c = '.'

/-- Scheme removal of `urlsplit`: when a `':'` occurs at a positive index,
the first character is an ASCII letter and everything before the `':'` is a
scheme character, drop through the `':'`. -/
def stripScheme (l : List Char) : List Char :=
  let i := (l.takeWhile (· ≠ ':')).length
  if 0 < i then
    if i < l.length then
      if testNth l 0 Char.isAlpha && (l.take i).all schemeChar then l.drop (i + 1) else l
    else l
  else l

/-- `_splitnetloc` of `urllib.parse`: after a leading `"//"`, the netloc runs
to the first of `/?#`; returns the netloc and the remaining URL. -/
def netlocSplit (l : List Char) : List Char × List Char :=
  if l.take 2 = ['/', '/'] then
    let netloc := (l.drop 2).takeWhile fun c => !(c = '/' || c = '?' || c = '#')
    (netloc, (l.drop 2).drop netloc.length)
  else ([], l)

/-- The `query` component of `urllib.parse.urlparse(url)`:  strip leading
C0-control/space, remove tab/CR/LF, strip the scheme, split off the netloc
(raising `ValueError` on an unbalanced bracket, as the source does), drop
the fragment after the first `'#'`, and take what follows the first `'?'`.
The NFKC re-check of `_checknetloc`, which can only reject netlocs
containing non-ASCII characters, is outside the model; theorems touching
this branch therefore assume ASCII input. -/
def urlsplitQuery (url : List Char) : Except String (List Char) :=
  let u0 := removeUnsafeUrlBytes (url.dropWhile whatwgC0Space)
  let p := netlocSplit (stripScheme u0)
  if (p.1.contains '[' && !p.1.contains ']') || (p.1.contains ']' && !p.1.contains '[') then
    .error "Invalid IPv6 URL"
  else
    let u2 := p.2.takeWhile (· ≠ '#')
    if u2.contains '?' then .ok ((u2.dropWhile (· ≠ '?')).drop 1) else .ok []

/-- Value of a hexadecimal digit character. -/
def hexDigit? (c : Char) : Option Nat :=
  if '0' ≤ c ∧ c ≤ '9' then some (c.toNat - '0'.toNat)
  else if 'a' ≤ c ∧ c ≤ 'f' then some (c.toNat - 'a'.toNat + 10)
  else if 'A' ≤ c ∧ c ≤ 'F' then some (c.toNat - 'A'.toNat + 10)
  else none

/-- UTF-8 encoding of one character. -/
def utf8Encode (c : Char) : List Nat :=
  let n := c.toNat
  if n < 0x80 then [n]
  else if n < 0x800 then [0xc0 + n / 0x40, 0x80 + n % 0x40]
  else if n < 0x10000 then [0xe0 + n / 0x1000, 0x80 + (n / 0x40) % 0x40, 0x80 + n % 0x40]
  else [0xf0 + n / 0x40000, 0x80 + (n / 0x1000) % 0x40, 0x80 + (n / 0x40) % 0x40, 0x80 + n % 0x40]

/-- `urllib.parse.unquote_to_bytes`: a `%` followed by two hex digits becomes
one byte, everything else contributes its UTF-8 bytes. -/
def percentToBytes : List Char → List Nat
  | [] => []
  | '%' :: c1 :: c2 :: rest =>
    match hexDigit? c1, hexDigit? c2 with
    | some h1, some h2 => (16 * h1 + h2) :: percentToBytes rest
    | _, _ => utf8Encode '%' ++ percentToBytes (c1 :: c2 :: rest)
  | c :: rest => utf8Encode c ++ percentToBytes rest

/-- The replacement character U+FFFD. -/
def replChar : Char := Char.ofNat 0xfffd

/-- A UTF-8 continuation byte. -/
def contByte (b : Nat) : Bool := 0x80 ≤ b && b ≤ 0xbf

/-- UTF-8 decoding with `errors='replace'` (one U+FFFD per maximal invalid
subpart, as CPython's decoder emits).  Fueled recursion. -/
def utf8DecodeGo : Nat → List Nat → List Char
  | 0, _ => []
  | _ + 1, [] => []
  | fuel + 1, b :: bs =>
    if b < 0x80 then Char.ofNat b :: utf8DecodeGo fuel bs
    else if b < 0xc2 then replChar :: utf8DecodeGo fuel bs
    else if b < 0xe0 then
      match bs with
      | [] => [replChar]
      | b2 :: rest =>
        if contByte b2 then
          Char.ofNat ((b - 0xc0) * 0x40 + (b2 - 0x80)) :: utf8DecodeGo fuel rest
        else replChar :: utf8DecodeGo fuel bs
    else if b < 0xf0 then
      match bs with
      | [] => [replChar]
      | b2 :: rest2 =>
        if contByte b2 && !(decide (b = 0xe0) && decide (b2 < 0xa0))
            && !(decide (b = 0xed) && decide (0x9f < b2)) then
          match rest2 with
          | [] => [replChar]
          | b3 :: rest3 =>
            if contByte b3 then
              Char.ofNat ((b - 0xe0) * 0x1000 + (b2 - 0x80) * 0x40 + (b3 - 0x80))
                :: utf8DecodeGo fuel rest3
            else replChar :: utf8DecodeGo fuel rest2
        else replChar :: utf8DecodeGo fuel bs
    else if b < 0xf5 then
      match bs with
      | [] => [replChar]
      | b2 :: rest2 =>
        if contByte b2 && !(decide (b = 0xf0) && decide (b2 < 0x90))
            && !(decide (b = 0xf4) && decide (0x8f < b2)) then
          match rest2 with
          | [] => [replChar]
          | b3 :: rest3 =>
            if contByte b3 then
              match rest3 with
              | [] => [replChar]
              | b4 :: rest4 =>
                if contByte b4 then
                  Char.ofNat ((b - 0xf0) * 0x40000 + (b2 - 0x80) * 0x1000
                      + (b3 - 0x80) * 0x40 + (b4 - 0x80)) :: utf8DecodeGo fuel rest4
                else replChar :: utf8DecodeGo fuel rest3
            else replChar :: utf8DecodeGo fuel rest2
        else replChar :: utf8DecodeGo fuel bs
    else replChar :: utf8DecodeGo fuel bs

/-- UTF-8 decoding with replacement on a byte list. -/
def utf8DecodeReplace (bs : List Nat) : List Char := utf8DecodeGo (bs.length + 1) bs

/-- `urllib.parse.unquote(s, encoding='utf-8', errors='replace')`.  CPython
passes runs of non-ASCII characters through without re-encoding them; on
ASCII input (the regime of the theorems below) that agrees with decoding
the full `unquote_to_bytes` stream as done here. -/
def unquote (l : List Char) : List Char := utf8DecodeReplace (percentToBytes l)

/-- The `.replace('+', ' ')` step of `parse_qsl`. -/
def replacePlus (l : List Char) : List Char := l.map fun c => if c = '+' then ' ' else c

/-- Python `s.split('=', 1)` viewed as: `none` when there is no `'='`,
otherwise the parts before and after the first `'='`. -/
def splitEq1 (l : List Char) : Option (List Char × List Char) :=
  if l.contains '=' then some (l.takeWhile (· ≠ '='), (l.dropWhile (· ≠ '=')).drop 1)
  else none

/-- Scan of `parse_qsl(query)` (with `keep_blank_values=False`) for the first
pair whose decoded name is `"v"`, returning its decoded value:  empty
fields, fields without `'='` and fields with an empty value part are
skipped; names and values get `'+'`-to-space replacement and `unquote`.
`parse_qs(query).get("v", [None])[0]` is exactly this first value. -/
def qsFirstV : List (List Char) → Option (List Char)
  | [] => none
  | p :: ps =>
    if p.isEmpty then qsFirstV ps
    else
      match splitEq1 p with
      | none => qsFirstV ps
      | some nv =>
        if nv.2.isEmpty then qsFirstV ps
        else if unquote (replacePlus nv.1) = ['v'] then some (unquote (replacePlus nv.2))
        else qsFirstV ps

/-- `parse_qs(query).get("v", [None])[0]` (query fields split at `'&'`). -/
def parseQsV (query : List Char) : Option (List Char) := qsFirstV (splitChar '&' query)

/-- `extract_video_id` of src/main.py.  `.error` models the `ValueError`
`urlparse` raises on an unbalanced-bracket netloc; `.ok none` is Python's
`None`. -/
def extract_video_id (url : String) : Except String (Option String) :=
  if hasSub "youtu.be".data url.data then
    .ok (some ((splitChar '/' url.data).getLastD []).asString)
  else if hasSub "youtube.com".data url.data then
    match urlsplitQuery url.data with
    | .error e => .error e
    | .ok q => .ok ((parseQsV q).map List.asString)
  else .ok none

/-- Helper for `words`: how a non-whitespace head character combines with
the words of the rest of the list (used to state "equal modulo whitespace
normalization" and "no word is split"). -/
def wordsCons (c : Char) (cs : List Char) (r : List (List Char)) : List (List Char) :=
  match cs with
  | [] => [[c]]
  | d :: _ =>
    if pyWsChar d then [c] :: r
    else
      match r with
      | t :: ts => (c :: t) :: ts
      | [] => [[c]]

/-- The whitespace-separated words of a character list, recursively: a
non-whitespace head either starts a fresh word or extends the first word of
the rest (`wordsCons` receives `words cs` as `r`). -/
def words : List Char → List (List Char)
  | [] => []
  | c :: cs => if pyWsChar c then words cs else wordsCons c cs (words cs)

/-- The non-whitespace chunks of a chunk list. -/
def wordToks (toks : List (List Char)) : List (List Char) :=
  toks.filter fun t => !t.any pyWsChar

/-- Shape of the chunk lists `_wrap_chunks` receives from `_split` on munged
hyphen-free text: nonempty space runs strictly alternating with nonempty
words free of `str`-whitespace characters. -/
def GoodToks (toks : List (List Char)) : Prop :=
  toks.Chain' (fun a b => a.any pyWsChar ≠ b.any pyWsChar) ∧
  ∀ t ∈ toks, t ≠ [] ∧
    (t.all (· = ' ') = true ∨ t.all (fun c => !pyStrWsChar c) = true)

/-- `GoodToks` with every word chunk within the wrap width. -/
def AltChunks (width : Nat) (toks : List (List Char)) : Prop :=
  GoodToks toks ∧
  ∀ t ∈ toks, t.all (fun c => !pyStrWsChar c) = true → t.length ≤ width

/-- The texts drawn over all pages, in order. -/
def pdfTexts (pages : List (List (Int × String))) : List String :=
  pages.flatten.map Prod.snd

/-- Texts drawn so far in a canvas state, in order. -/
def pdfStateTexts (st : PdfState) : List String :=
  (st.1.flatten ++ st.2.1).map Prod.snd

/-- Number of finished pages after `n` body draws from `pdfInit` (page one
holds 45 body lines below the title, later pages hold 47). -/
def pdfPagesCount (n : Nat) : Nat := if n < 45 then 0 else 1 + (n - 45) / 47

/-- Number of draws on the unfinished page after `n` body draws from
`pdfInit` (the title draw included on page one). -/
def pdfCurCount (n : Nat) : Nat := if n < 45 then n + 1 else (n - 45) % 47

/-- Cursor position after `n` body draws from `pdfInit`. -/
def pdfYAt (n : Nat) : Int :=
  if n < 45 then 722 - 15 * (n : Int) else 742 - 15 * (((n - 45) % 47 : Nat) : Int)

/-- Well-formedness of the draws of one page: the cursor decreases by the
line height 15 from draw to draw (with the 20-point gap between the title
at 742 and the first body line at 722), and never reaches below the bottom
margin. -/
def PageChainOk (page : List (Int × String)) : Prop :=
  (page.map Prod.fst).Chain' (fun a b => b = a - 15 ∨ (a = 742 ∧ b = 722)) ∧
  ∀ d ∈ page, 50 ≤ d.1

/-- Invariant of the canvas state along the draw loop of `save_pdf`. -/
def PdfInv (st : PdfState) : Prop :=
  (∀ p ∈ st.1, PageChainOk p) ∧ PageChainOk st.2.1 ∧ 50 ≤ st.2.2 ∧
  (st.2.1 = [] → st.2.2 = 742) ∧
  (∀ lst, st.2.1.getLast? = some lst → st.2.2 = lst.1 - 15 ∨ (lst.1 = 742 ∧ st.2.2 = 722))

/-- C4: `get_transcript` never raises an exception to its caller: for every
provider outcome it returns either the newline-joined entry texts or the
Unavailable signal `none`; transcripts-disabled, not-found and any other
provider failure all fold to `none`. -/
theorem c4_get_transcript_never_raises (r : ProviderResult) :
    (get_transcript r = none ∨
      ∃ ts, r = ProviderResult.entries ts ∧
        get_transcript r = some (String.intercalate "\n" ts)) ∧
    get_transcript ProviderResult.transcriptsDisabled = none ∧
    get_transcript ProviderResult.noTranscriptFound = none ∧
    ∀ e, get_transcript (ProviderResult.otherFailure e) = none := by
  refine ⟨?_, rfl, rfl, fun _ => rfl⟩
  cases r with
  | entries ts => exact Or.inr ⟨ts, rfl, rfl⟩
  | transcriptsDisabled => exact Or.inl rfl
  | noTranscriptFound => exact Or.inl rfl
  | otherFailure e => exact Or.inl rfl

/-- C2: for transcripts of length at most `chunk_size` (the empty string
included), `summarize_text` takes the direct branch: the call sequence is
exactly the one direct prompt (chunk mode is never entered), and on success
the result is the stripped model text under the fixed report header. -/
theorem c2_direct_mode (gen : GenOracle) (text : String) (chunk_size : Nat)
    (h : text.length ≤ chunk_size) :
    summarizeCalls gen text chunk_size = [directPrompt text] ∧
    ∀ r, gen (directPrompt text) = .ok r →
      summarize_text gen text chunk_size = "### Video Summary Report\n\n" ++ pyStrip r := by
  refine ⟨by simp [summarizeCalls, h], fun r hr => ?_⟩
  simp [summarize_text, h, hr]

/-- Witness for C2 at the empty transcript with the default width. -/
theorem c2_direct_mode_witness :
    ("" : String).length ≤ 2000 ∧
    summarizeCalls (fun _ => .ok " R ") "" 2000 = [directPrompt ""] ∧
    summarize_text (fun _ => .ok " R ") "" 2000 = "### Video Summary Report\n\n" ++ pyStrip " R " :=
  ⟨by decide, (c2_direct_mode (fun _ => .ok " R ") "" 2000 (by decide)).1,
    (c2_direct_mode (fun _ => .ok " R ") "" 2000 (by decide)).2 " R " rfl⟩

/-- C5: in direct mode a failing generation call does not raise: the returned
value is a string whose body is the error-describing message. -/
theorem c5_direct_mode_error (gen : GenOracle) (text : String) (chunk_size : Nat) (e : String)
    (h : text.length ≤ chunk_size) (he : gen (directPrompt text) = .error e) :
    summarize_text gen text chunk_size = "❌ Error generating summary: " ++ e := by
  simp [summarize_text, h, he]

/-- Witness for C5 at a concrete failing oracle. -/
theorem c5_direct_mode_error_witness :
    ("hi" : String).length ≤ 2000 ∧
    (fun _ => Except.error "boom" : GenOracle) (directPrompt "hi") = .error "boom" ∧
    summarize_text (fun _ => .error "boom") "hi" 2000 = "❌ Error generating summary: " ++ "boom" :=
  ⟨by decide, rfl, c5_direct_mode_error (fun _ => .error "boom") "hi" 2000 "boom" (by decide) rfl⟩

/-- C8: in chunked mode there is exactly one summary entry per chunk, and the
call sequence is the per-chunk prompts followed by exactly one combination
prompt — so `summarize_text` issues `chunks + 1` calls no matter how many
per-chunk calls fail. -/
theorem c8_chunk_mode_invariants (gen : GenOracle) (text : String) (chunk_size : Nat)
    (h : chunk_size < text.length) :
    (chunkSummaries gen chunk_size text).length = (summarizeChunks chunk_size text).length ∧
    summarizeCalls gen text chunk_size
      = (summarizeChunks chunk_size text).map chunkPrompt
        ++ [finalPrompt (combinedNotes gen chunk_size text)] ∧
    (summarizeCalls gen text chunk_size).length = (summarizeChunks chunk_size text).length + 1 := by
  have h' : ¬ text.length ≤ chunk_size := by omega
  exact ⟨by simp [chunkSummaries], by simp [summarizeCalls, h'], by simp [summarizeCalls, h']⟩

/-- Witness for C8 with every per-chunk call failing. -/
theorem c8_chunk_mode_invariants_witness :
    1 < ("ab c" : String).length ∧
    (chunkSummaries (fun _ => .error "x") 1 "ab c").length
      = (summarizeChunks 1 "ab c").length ∧
    (summarizeCalls (fun _ => .error "x") "ab c" 1).length
      = (summarizeChunks 1 "ab c").length + 1 :=
  ⟨by decide, (c8_chunk_mode_invariants (fun _ => .error "x") "ab c" 1 (by decide)).1,
    (c8_chunk_mode_invariants (fun _ => .error "x") "ab c" 1 (by decide)).2.2⟩

/-- C3 counterexample: the placeholder the code appends for a failing chunk is
`"Error summarizing this chunk."` (with a trailing period), not the literal
`"Error summarizing this chunk"` stated by the claim. -/
theorem c3_counterexample :
    5 < ("aa bb cc dd" : String).length ∧
    summarizeChunks 5 "aa bb cc dd" = ["aa bb", "cc dd"] ∧
    (fun p => if p = chunkPrompt "aa bb" then .error "boom" else .ok "S" : GenOracle)
      (chunkPrompt "aa bb") = Except.error "boom" ∧
    (chunkSummaries
        (fun p => if p = chunkPrompt "aa bb" then .error "boom" else .ok "S") 5
        "aa bb cc dd").getD 0 ""
      = "Error summarizing this chunk." ∧
    (chunkSummaries
        (fun p => if p = chunkPrompt "aa bb" then .error "boom" else .ok "S") 5
        "aa bb cc dd").getD 0 ""
      ≠ "Error summarizing this chunk" := by
  refine ⟨by decide, by decide, by rfl, by decide, by decide⟩

/-- C3 (amended): in chunked mode a failing chunk never aborts the run — its
entry in the combination input is the literal placeholder
`"Error summarizing this chunk."` (trailing period included), every
successfully summarized chunk contributes its stripped summary at its own
position, the combination input joins the entries in original order with
newline separators, and `summarize_text` still returns a report string. -/
theorem c3_amended_chunk_failure (gen : GenOracle) (text : String) (chunk_size : Nat) (i : Nat)
    (h : chunk_size < text.length)
    (hi : i < (summarizeChunks chunk_size text).length)
    (he : ∃ e, gen (chunkPrompt ((summarizeChunks chunk_size text).getD i "")) = .error e) :
    (chunkSummaries gen chunk_size text).getD i "" = "Error summarizing this chunk." ∧
    (∀ j r, j < (summarizeChunks chunk_size text).length →
      gen (chunkPrompt ((summarizeChunks chunk_size text).getD j "")) = .ok r →
      (chunkSummaries gen chunk_size text).getD j "" = pyStrip r) ∧
    combinedNotes gen chunk_size text
      = String.intercalate "\n" (chunkSummaries gen chunk_size text) ∧
    ∃ r, summarize_text gen text chunk_size = "### Video Summary Report\n\n" ++ r ∨
      summarize_text gen text chunk_size = "❌ Error combining summaries: " ++ r := by
  obtain ⟨e, he⟩ := he
  have h' : ¬ text.length ≤ chunk_size := by omega
  refine ⟨?_, ?_, rfl, ?_⟩
  · have hi' : i < (chunkSummaries gen chunk_size text).length := by
      simpa [chunkSummaries] using hi
    rw [List.getD_eq_getElem _ _ hi'] at *
    rw [List.getD_eq_getElem _ _ hi] at he
    simp only [chunkSummaries, List.getElem_map] at *
    rw [he]
  · intro j r hj hr
    have hj' : j < (chunkSummaries gen chunk_size text).length := by
      simpa [chunkSummaries] using hj
    rw [List.getD_eq_getElem _ _ hj'] at *
    rw [List.getD_eq_getElem _ _ hj] at hr
    simp only [chunkSummaries, List.getElem_map] at *
    rw [hr]
  · cases hfin : gen (finalPrompt (combinedNotes gen chunk_size text)) with
    | ok r => exact ⟨pyStrip r, Or.inl (by simp [summarize_text, h', hfin])⟩
    | error e2 => exact ⟨e2, Or.inr (by simp [summarize_text, h', hfin])⟩

/-- Witness for the amended C3 at a concrete one-failing-chunk oracle. -/
theorem c3_amended_chunk_failure_witness :
    5 < ("aa bb cc dd" : String).length ∧
    0 < (summarizeChunks 5 "aa bb cc dd").length ∧
    (chunkSummaries
        (fun p => if p = chunkPrompt "aa bb" then .error "boom" else .ok " S ") 5
        "aa bb cc dd").getD 0 ""
      = "Error summarizing this chunk." :=
  ⟨by decide, by decide,
    (c3_amended_chunk_failure
      (fun p => if p = chunkPrompt "aa bb" then .error "boom" else .ok " S ")
      "aa bb cc dd" 5 0 (by decide) (by decide) ⟨"boom", by rfl⟩).1⟩

/-- The chunk list of `splitChar` is never empty. -/
theorem splitChar_ne_nil (sep : Char) (l : List Char) : splitChar sep l ≠ [] := by
  cases l with
  | nil => simp [splitChar]
  | cons c cs =>
    simp only [splitChar]
    split
    · simp
    · split <;> simp

/-- A list containing the separator splits into at least two parts. -/
theorem splitChar_length_two (sep : Char) (l : List Char) (h : sep ∈ l) :
    2 ≤ (splitChar sep l).length := by
  induction l with
  | nil => cases h
  | cons c cs ih =>
    by_cases hc : c = sep
    · have h1 : (splitChar sep cs).length ≠ 0 :=
        fun h0 => splitChar_ne_nil sep cs (List.length_eq_zero.mp h0)
      simp only [splitChar, if_pos hc, List.length_cons]
      omega
    · have hmem : sep ∈ cs := by
        cases h with
        | head => exact absurd rfl hc
        | tail _ h => exact h
      cases hr : splitChar sep cs with
      | nil => exact absurd hr (splitChar_ne_nil sep cs)
      | cons t ts =>
        have := ih hmem
        rw [hr] at this
        simp only [splitChar, if_neg hc, hr, List.length_cons] at *
        omega

/-- A list avoiding the separator splits into itself alone. -/
theorem splitChar_eq_single (sep : Char) (l : List Char) (h : sep ∉ l) :
    splitChar sep l = [l] := by
  induction l with
  | nil => simp [splitChar]
  | cons c cs ih =>
    have hc : ¬ c = sep := fun hh => h (hh ▸ List.mem_cons_self c cs)
    have ihe := ih fun hm => h (List.mem_cons_of_mem c hm)
    simp [splitChar, hc, ihe]

/-- The last part of `splitChar sep l` avoids the separator, and it is the
suffix of `l` after the last separator (all of `l` when there is none). -/
theorem splitChar_last_spec (sep : Char) (l : List Char) :
    sep ∉ (splitChar sep l).getLastD [] ∧
    ((sep ∉ l ∧ (splitChar sep l).getLastD [] = l) ∨
      ∃ pre, l = pre ++ sep :: (splitChar sep l).getLastD []) := by
  induction l with
  | nil => simp [splitChar]
  | cons c cs ih =>
    obtain ⟨ihn, ihd⟩ := ih
    by_cases hc : c = sep
    · subst hc
      have hseg : (splitChar c (c :: cs)).getLastD [] = (splitChar c cs).getLastD [] := by
        simp only [splitChar, if_pos rfl]
        cases hr : splitChar c cs with
        | nil => exact absurd hr (splitChar_ne_nil c cs)
        | cons t ts => simp [List.getLastD_cons]
      rw [hseg]
      refine ⟨ihn, Or.inr ?_⟩
      rcases ihd with ⟨hnm, hl⟩ | ⟨pre, hpre⟩
      · exact ⟨[], by rw [hl]; simp⟩
      · exact ⟨c :: pre, by rw [List.cons_append, ← hpre]⟩
    · cases hr : splitChar sep cs with
      | nil => exact absurd hr (splitChar_ne_nil sep cs)
      | cons t ts =>
        have hsc : splitChar sep (c :: cs) = (c :: t) :: ts := by
          simp [splitChar, hc, hr]
        cases ts with
        | nil =>
          have hsegcs : (splitChar sep cs).getLastD [] = t := by simp [hr]
          have hseg : (splitChar sep (c :: cs)).getLastD [] = c :: t := by simp [hsc]
          rw [hseg]
          rw [hsegcs] at ihn ihd
          rcases ihd with ⟨hnm, hl⟩ | ⟨pre, hpre⟩
          · refine ⟨?_, Or.inl ⟨?_, by rw [hl]⟩⟩
            · intro hmem
              cases hmem with
              | head => exact hc rfl
              | tail _ hm => exact ihn hm
            · intro hmem
              cases hmem with
              | head => exact hc rfl
              | tail _ hm => exact hnm hm
          · exfalso
            have h2 := splitChar_length_two sep cs (by rw [hpre]; simp)
            rw [hr] at h2
            simp at h2
        | cons u us =>
          have hseg : (splitChar sep (c :: cs)).getLastD [] = (splitChar sep cs).getLastD [] := by
            rw [hsc, hr]
            simp [List.getLastD_cons]
          rw [hseg]
          refine ⟨ihn, ?_⟩
          rcases ihd with ⟨hnm, hl⟩ | ⟨pre, hpre⟩
          · exfalso
            have := splitChar_eq_single sep cs hnm
            rw [hr] at this
            simp at this
          · exact Or.inr ⟨c :: pre, by rw [List.cons_append, ← hpre]⟩

/-- When `l` ends with the separator, the last part of the split is empty. -/
theorem splitChar_last_of_concat (sep : Char) (l pre : List Char) (h : l = pre ++ [sep]) :
    (splitChar sep l).getLastD [] = [] := by
  obtain ⟨hn, hd⟩ := splitChar_last_spec sep l
  set seg := (splitChar sep l).getLastD [] with hsegdef
  rcases hd with ⟨hnm, _⟩ | ⟨pre', hpre⟩
  · exact absurd (by rw [h]; simp) hnm
  · by_contra hne
    have h1 : l.getLast? = some sep := by rw [h]; simp
    have h2 : l.getLast? = seg.getLast? := by
      rw [hpre, List.getLast?_append_of_ne_nil _ (by simp)]
      cases hsegc : seg with
      | nil => exact absurd hsegc hne
      | cons x xs => rw [List.getLast?_cons_cons]
    rw [h1] at h2
    exact hn (List.mem_of_mem_getLast? h2.symm)

/-- C9: for every URL containing `"youtu.be"`, `extract_video_id` returns
exactly the substring after the last `'/'` with nothing stripped (all of
the URL when it has no slash, so query or fragment parts stay attached),
and that substring is empty when the URL ends in `'/'`; a URL containing
neither `"youtu.be"` nor `"youtube.com"` yields `None`. -/
theorem c9_extract_branches (url : String) :
    (hasSub "youtu.be".data url.data = true →
      extract_video_id url
        = .ok (some ((splitChar '/' url.data).getLastD []).asString) ∧
      ('/' : Char) ∉ (splitChar '/' url.data).getLastD [] ∧
      ((('/' : Char) ∉ url.data ∧ (splitChar '/' url.data).getLastD [] = url.data) ∨
        ∃ pre, url.data = pre ++ '/' :: (splitChar '/' url.data).getLastD []) ∧
      ∀ pre, url.data = pre ++ ['/'] → (splitChar '/' url.data).getLastD [] = []) ∧
    (hasSub "youtu.be".data url.data = false →
      hasSub "youtube.com".data url.data = false →
      extract_video_id url = .ok none) := by
  constructor
  · intro h
    exact ⟨by simp [extract_video_id, h], (splitChar_last_spec '/' url.data).1,
      (splitChar_last_spec '/' url.data).2,
      fun pre hp => splitChar_last_of_concat '/' url.data pre hp⟩
  · intro h1 h2
    simp [extract_video_id, h1, h2]

/-- Witness for C9 at a concrete short-URL and a concrete foreign URL. -/
theorem c9_extract_branches_witness :
    hasSub "youtu.be".data ("https://youtu.be/abc?x=1" : String).data = true ∧
    extract_video_id "https://youtu.be/abc?x=1"
      = .ok (some ((splitChar '/' ("https://youtu.be/abc?x=1" : String).data).getLastD
          []).asString) ∧
    extract_video_id "https://example.org/v" = Except.ok none :=
  ⟨by decide, ((c9_extract_branches "https://youtu.be/abc?x=1").1 (by decide)).1,
    (c9_extract_branches "https://example.org/v").2 (by decide) (by decide)⟩

/-- C7 counterexample: on the URL `"https://youtu.be/"` extraction returns the
empty string as a success value instead of the failure signal `None`. -/
theorem c7_counterexample :
    extract_video_id "https://youtu.be/" = Except.ok (some "") ∧
    some ("" : String) ≠ none ∧ ("" : String).length = 0 := by
  exact ⟨by rfl, by simp, rfl⟩

/-- C1 counterexample: with width 4, the transcript `"ab-cd xy"` (length 8)
is wrapped with a break inside the hyphenated word `"ab-cd"`, so rejoining
the chunks with single spaces does not reconstruct the text modulo
whitespace normalization; and for `"aaaaa bb"` a chunk exceeds the width. -/
theorem c1_counterexample :
    4 < ("ab-cd xy" : String).length ∧
    summarizeChunks 4 "ab-cd xy" = ["ab-", "cd", "xy"] ∧
    words (String.intercalate " " (summarizeChunks 4 "ab-cd xy")).data
      ≠ words ("ab-cd xy" : String).data ∧
    4 < ("aaaaa bb" : String).length ∧
    ¬ ∀ chunk ∈ summarizeChunks 4 "aaaaa bb", chunk.length ≤ 4 := by
  exact ⟨by decide, by decide, by decide, by decide, by decide⟩

/-- An empty last part of the split means the list is empty or ends with the
separator. -/
theorem splitChar_last_nil_cases (sep : Char) (l : List Char)
    (h : (splitChar sep l).getLastD [] = []) : l = [] ∨ ∃ pre, l = pre ++ [sep] := by
  obtain ⟨_, hd⟩ := splitChar_last_spec sep l
  rcases hd with ⟨_, hl⟩ | ⟨pre, hpre⟩
  · left
    rw [← hl, h]
  · right
    refine ⟨pre, ?_⟩
    rw [hpre, h]

/-- UTF-8 encodings are nonempty. -/
theorem utf8Encode_ne_nil (c : Char) : utf8Encode c ≠ [] := by
  simp only [utf8Encode]
  split_ifs <;> simp

/-- Percent-decoding a nonempty character list yields at least one byte. -/
theorem percentToBytes_ne_nil (l : List Char) (h : l ≠ []) : percentToBytes l ≠ [] := by
  rw [percentToBytes.eq_def]
  split
  · exact absurd rfl h
  · split
    · simp
    · intro hx
      exact utf8Encode_ne_nil '%' (List.append_eq_nil.mp hx).1
  · intro hx
    next c rest _ =>
    exact utf8Encode_ne_nil c (List.append_eq_nil.mp hx).1

/-- The UTF-8 replacement decoder emits at least one character on nonempty
byte input. -/
theorem utf8DecodeGo_ne_nil (fuel : Nat) (b : Nat) (bs : List Nat) :
    utf8DecodeGo (fuel + 1) (b :: bs) ≠ [] := by
  simp only [utf8DecodeGo]
  repeat' split
  all_goals simp

/-- `unquote` of a nonempty character list is nonempty. -/
theorem unquote_ne_nil (l : List Char) (h : l ≠ []) : unquote l ≠ [] := by
  unfold unquote utf8DecodeReplace
  cases hp : percentToBytes l with
  | nil => exact absurd hp (percentToBytes_ne_nil l h)
  | cons b bs => exact utf8DecodeGo_ne_nil _ b bs

/-- A value returned by the `v`-lookup of `parse_qs` is never the empty
string: blank values are skipped and decoding never empties a value. -/
theorem qsFirstV_ne_nil (ps : List (List Char)) (v : List Char) (h : qsFirstV ps = some v) :
    v ≠ [] := by
  induction ps with
  | nil => simp [qsFirstV] at h
  | cons p ps ih =>
    rw [qsFirstV] at h
    split at h
    · exact ih h
    · split at h
      · exact ih h
      · next nv heq =>
        split at h
        · exact ih h
        · rename_i hv2
          split at h
          · rw [← Option.some.inj h]
            apply unquote_ne_nil
            intro hrp
            apply hv2
            rw [List.isEmpty_iff]
            have hlen := congrArg List.length hrp
            simp [replacePlus] at hlen
            exact hlen
          · exact ih h

/-- C7 (amended): `extract_video_id` either fails (`None`, or the
`ValueError` of `urlparse`) or returns an identifier string; the identifier
is non-empty except in the `youtu.be` branch on a URL ending in `'/'`
(whose trailing segment is empty).  The ASCII hypothesis is the regime in
which the embedded `urlsplit` is exact (its NFKC netloc re-check can only
reject non-ASCII netlocs). -/
theorem c7_amended_nonempty_id (url : String)
    (_hascii : ∀ c ∈ url.data, c.toNat < 128) :
    (∃ e, extract_video_id url = .error e) ∨
    extract_video_id url = .ok none ∨
    ∃ id, extract_video_id url = .ok (some id) ∧
      (id = "" → hasSub "youtu.be".data url.data = true ∧
        ∃ pre, url.data = pre ++ ['/']) := by
  by_cases h1 : hasSub "youtu.be".data url.data = true
  · right; right
    refine ⟨((splitChar '/' url.data).getLastD []).asString,
      by simp [extract_video_id, h1], fun hid => ?_⟩
    have hseg : (splitChar '/' url.data).getLastD [] = [] := by
      have := congrArg String.data hid
      simpa [List.asString] using this
    rcases splitChar_last_nil_cases '/' url.data hseg with hnil | ⟨pre, hpre⟩
    · rw [hnil] at h1
      exact absurd h1 (by decide)
    · exact ⟨h1, pre, hpre⟩
  · by_cases h2 : hasSub "youtube.com".data url.data = true
    · cases hq : urlsplitQuery url.data with
      | error e =>
        left
        exact ⟨e, by simp [extract_video_id, h1, h2, hq]⟩
      | ok q =>
        cases hv : parseQsV q with
        | none =>
          right; left
          simp [extract_video_id, h1, h2, hq, hv]
        | some v =>
          right; right
          refine ⟨v.asString, by simp [extract_video_id, h1, h2, hq, hv], fun hid => ?_⟩
          exfalso
          apply qsFirstV_ne_nil _ v hv
          have := congrArg String.data hid
          simpa [List.asString] using this
    · right; left
      simp [extract_video_id, h1, h2]

/-- Witness for the amended C7 at a concrete URL. -/
theorem c7_amended_nonempty_id_witness :
    (∀ c ∈ ("https://youtu.be/x" : String).data, c.toNat < 128) ∧
    ((∃ e, extract_video_id "https://youtu.be/x" = .error e) ∨
      extract_video_id "https://youtu.be/x" = .ok none ∨
      ∃ id, extract_video_id "https://youtu.be/x" = .ok (some id) ∧
        (id = "" → hasSub "youtu.be".data ("https://youtu.be/x" : String).data = true ∧
          ∃ pre, ("https://youtu.be/x" : String).data = pre ++ ['/'])) :=
  ⟨by decide, c7_amended_nonempty_id "https://youtu.be/x" (by decide)⟩

/-- One draw appends exactly its text to the rendered text sequence. -/
theorem pdfStateTexts_step (st : PdfState) (w : String) :
    pdfStateTexts (pdfStep st w) = pdfStateTexts st ++ [w] := by
  obtain ⟨pages, cur, y⟩ := st
  simp only [pdfStep, pdfStateTexts]
  split <;> simp

/-- Folding draws appends their texts in order. -/
theorem pdfStateTexts_foldl (wls : List String) :
    ∀ st : PdfState, pdfStateTexts (wls.foldl pdfStep st) = pdfStateTexts st ++ wls := by
  induction wls with
  | nil => intro st; simp
  | cons w ws ih =>
    intro st
    simp [List.foldl_cons, ih, pdfStateTexts_step]

/-- The nested loop of `save_pdf` draws exactly the wrapped sub-lines of all
input lines, in order. -/
theorem pdfStateTexts_lines (lines : List String) :
    ∀ st : PdfState,
      pdfStateTexts (lines.foldl (fun st line => (pyWrap 100 true line).foldl pdfStep st) st)
        = pdfStateTexts st ++ lines.flatMap (pyWrap 100 true) := by
  induction lines with
  | nil => intro st; simp
  | cons l ls ih =>
    intro st
    simp [List.foldl_cons, ih, pdfStateTexts_foldl]

/-- Closing the document renders the texts accumulated in the state. -/
theorem pdfTexts_close (st : PdfState) :
    pdfTexts (st.1 ++ if st.2.1.isEmpty then [] else [st.2.1]) = pdfStateTexts st := by
  obtain ⟨pages, cur, y⟩ := st
  by_cases hc : cur = []
  · simp [pdfTexts, pdfStateTexts, hc]
  · simp [pdfTexts, pdfStateTexts, hc]

/-- The texts `save_pdf` renders: the title followed by every wrapped
sub-line of every input line, in order (no content dropped). -/
theorem save_pdf_texts (title summary : String) :
    pdfTexts (save_pdf title summary)
      = title :: (pySplitNl summary).flatMap (pyWrap 100 true) := by
  simp only [save_pdf]
  rw [pdfTexts_close, pdfStateTexts_lines]
  simp [pdfStateTexts, pdfInit]

/-- The greedy loop splits its input. -/
theorem greedyTake_append (width : Nat) :
    ∀ (l : List (List Char)) (cur : Nat),
      (greedyTake width cur l).1 ++ (greedyTake width cur l).2 = l := by
  intro l
  induction l with
  | nil => intro cur; simp [greedyTake]
  | cons t ts ih =>
    intro cur
    simp only [greedyTake]
    split
    · simp [ih]
    · simp

/-- The greedy loop keeps the line within the width (unless it takes
nothing). -/
theorem greedyTake_sum (width : Nat) :
    ∀ (l : List (List Char)) (cur : Nat),
      (greedyTake width cur l).1 = [] ∨
        cur + ((greedyTake width cur l).1.map List.length).sum ≤ width := by
  intro l
  induction l with
  | nil => intro cur; exact Or.inl rfl
  | cons t ts ih =>
    intro cur
    simp only [greedyTake]
    split
    · rcases ih (cur + t.length) with h0 | hle
      · right
        simp [h0]
        omega
      · right
        simp only [List.map_cons, List.sum_cons]
        omega
    · exact Or.inl rfl

/-- When the greedy loop takes nothing, the first chunk does not fit. -/
theorem greedyTake_nil_first (width cur : Nat) (t : List Char) (ts : List (List Char))
    (h : (greedyTake width cur (t :: ts)).1 = []) : width < cur + t.length := by
  simp only [greedyTake] at h
  split at h
  · simp at h
  · omega

/-- `rfindHyphen` returns an index within the list. -/
theorem rfindHyphen_lt (l : List Char) (h : Nat) (hh : rfindHyphen l = some h) :
    h < l.length := by
  unfold rfindHyphen at hh
  have := List.mem_of_find?_eq_some hh
  simpa using this

/-- The long-word break index never exceeds the space left on the line. -/
theorem longWordEnd_le (t : List Char) (sl : Nat) : longWordEnd t sl ≤ sl := by
  unfold longWordEnd
  split
  · split
    · split
      · next hfind _ =>
        have h1 := rfindHyphen_lt _ _ hfind
        simp only [List.length_take] at h1
        omega
      · exact le_refl sl
    · exact le_refl sl
  · exact le_refl sl

/-- The long-word break consumes at least one character when there is room. -/
theorem longWordEnd_pos (t : List Char) (sl : Nat) (h : 1 ≤ sl) : 1 ≤ longWordEnd t sl := by
  unfold longWordEnd
  split
  · split
    · split
      · omega
      · exact h
    · exact h
  · exact h

/-- `trailingDrop` either keeps the line or removes its last chunk. -/
theorem trailingDrop_cases (q1 : List (List Char)) :
    trailingDrop q1 = q1 ∨ trailingDrop q1 = q1.dropLast := by
  unfold trailingDrop
  cases q1.getLast? with
  | none => exact Or.inl rfl
  | some lst =>
    by_cases hb : isBlankTok lst = true
    · simp [hb]
    · simp [hb]

/-- Chunk lengths never grow through `trailingDrop`. -/
theorem trailingDrop_sum_le (q1 : List (List Char)) :
    (((trailingDrop q1).map List.length).sum) ≤ ((q1.map List.length).sum) := by
  rcases trailingDrop_cases q1 with h | h
  · rw [h]
  · rw [h]
    exact List.Sublist.sum_le_sum ((List.dropLast_sublist q1).map List.length)
      (fun x _ => Nat.zero_le x)

/-- With `break_long_words` on and a positive width, `_handle_long_word`
keeps the line within the width. -/
theorem longAdjust_sum_le (width : Nat) (hw : 1 ≤ width)
    (p : List (List Char) × List (List Char))
    (hsum : ((p.1.map List.length).sum) ≤ width) :
    (((longAdjust true width p).1.map List.length).sum) ≤ width := by
  obtain ⟨p1, p2⟩ := p
  have hsum' : ((p1.map List.length).sum) ≤ width := by simpa using hsum
  cases p2 with
  | nil => simpa [longAdjust] using hsum
  | cons t ts =>
    simp only [longAdjust]
    split
    · split
      · have hnlt : ¬ width < 1 := by omega
        simp only [if_neg hnlt, List.map_append, List.sum_append, List.map_cons,
          List.sum_cons, List.map_nil, List.sum_nil, List.length_take]
        have hle := longWordEnd_le t (width - ((p1.map List.length).sum))
        omega
      · next hblw => exact absurd trivial hblw
    · simpa using hsum

/-- With `break_long_words` on and a positive width, every emitted line fits
the width. -/
theorem wrapStep_line_le (width : Nat) (hw : 1 ≤ width) (chunks : List (List Char))
    (l : List Char) (h : (wrapStep true width chunks).1 = some l) : l.length ≤ width := by
  have hsum : ((greedyTake width 0 chunks).1.map List.length).sum ≤ width := by
    rcases greedyTake_sum width chunks 0 with h0 | hle
    · simp [h0]
    · omega
  have hq := longAdjust_sum_le width hw (greedyTake width 0 chunks) hsum
  simp only [wrapStep] at h
  split at h
  · exact absurd h (by simp)
  · next hne =>
    have hl : l = (trailingDrop (longAdjust true width (greedyTake width 0 chunks)).1).flatten :=
      (Option.some.inj h).symm
    rw [hl]
    calc (trailingDrop (longAdjust true width (greedyTake width 0 chunks)).1).flatten.length
        = (((trailingDrop (longAdjust true width (greedyTake width 0 chunks)).1).map
            List.length).sum) := by simp [List.length_flatten]
      _ ≤ _ := le_trans (trailingDrop_sum_le _) hq

/-- `wrapGo` on an empty chunk list yields no lines. -/
theorem wrapGo_nil (blw : Bool) (width fuel : Nat) (emitted : Bool) :
    wrapGo blw width fuel emitted [] = [] := by
  cases fuel <;> rfl

/-- Unfolding equation for one pass of `wrapGo`. -/
theorem wrapGo_succ_eq (blw : Bool) (width fuel : Nat) (emitted : Bool)
    (t0 : List Char) (ts0 : List (List Char)) :
    wrapGo blw width (fuel + 1) emitted (t0 :: ts0)
      = wrapIter blw width fuel emitted
          (if emitted && isBlankTok t0 then ts0 else t0 :: ts0) := by
  rw [wrapGo]
  cases h : (if emitted && isBlankTok t0 then ts0 else t0 :: ts0) <;> rfl

/-- With `break_long_words` on and a positive width, every line `wrapGo`
emits fits the width. -/
theorem wrapGo_lines_le (width : Nat) (hw : 1 ≤ width) :
    ∀ (fuel : Nat) (emitted : Bool) (toks : List (List Char)) (l : List Char),
      l ∈ wrapGo true width fuel emitted toks → l.length ≤ width := by
  intro fuel
  induction fuel with
  | zero =>
    intro emitted toks l h
    simp [wrapGo] at h
  | succ fuel ih =>
    intro emitted toks l h
    cases toks with
    | nil => simp [wrapGo_nil] at h
    | cons t0 ts0 =>
      rw [wrapGo_succ_eq] at h
      cases hch : (if emitted && isBlankTok t0 then ts0 else t0 :: ts0) with
      | nil => rw [hch] at h; simp [wrapIter] at h
      | cons c0 cs0 =>
        rw [hch] at h
        simp only [wrapIter] at h
        cases hr : (wrapStep true width (c0 :: cs0)).1 with
        | none =>
          rw [hr] at h
          exact ih emitted _ l h
        | some line =>
          rw [hr] at h
          rcases List.mem_cons.mp h with rfl | hmem
          · exact wrapStep_line_le width hw (c0 :: cs0) l hr
          · exact ih true _ l hmem

/-- Every line of `textwrap.wrap(s, width)` with `break_long_words=True` and
positive width fits the width. -/
theorem pyWrap_lines_le (width : Nat) (hw : 1 ≤ width) (s : String) :
    ∀ l ∈ pyWrap width true s, l.length ≤ width := by
  intro l hl
  simp only [pyWrap, List.mem_map] at hl
  obtain ⟨t, ht, rfl⟩ := hl
  rw [pyWrapList] at ht
  exact wrapGo_lines_le width hw _ _ _ t ht

/-- Appending a draw at the invariant cursor keeps a page well-formed. -/
theorem pageChainOk_snoc (cur : List (Int × String)) (y : Int) (w : String)
    (hok : PageChainOk cur) (hy : 50 ≤ y)
    (hlast : ∀ lst, cur.getLast? = some lst → y = lst.1 - 15 ∨ (lst.1 = 742 ∧ y = 722)) :
    PageChainOk (cur ++ [(y, w)]) := by
  obtain ⟨hchain, hmem⟩ := hok
  constructor
  · rw [List.map_append]
    rw [List.chain'_append]
    refine ⟨hchain, List.chain'_singleton _, ?_⟩
    intro a ha b hb
    simp only [List.map_cons, List.map_nil, List.head?_cons, Option.mem_def,
      Option.some.injEq] at hb
    subst hb
    rw [List.getLast?_map] at ha
    simp only [Option.mem_def, Option.map_eq_some'] at ha
    obtain ⟨lst, hlst, rfl⟩ := ha
    exact hlast lst hlst
  · intro d hd
    rcases List.mem_append.mp hd with hd | hd
    · exact hmem d hd
    · simp only [List.mem_singleton] at hd
      subst hd
      exact hy

/-- The empty page is well-formed. -/
theorem pageChainOk_nil : PageChainOk [] := by
  constructor
  · simp
  · intro d hd
    simp at hd

/-- One draw preserves the canvas invariant. -/
theorem pdfStep_inv (st : PdfState) (w : String) (h : PdfInv st) : PdfInv (pdfStep st w) := by
  obtain ⟨pages, cur, y⟩ := st
  obtain ⟨hpages, hcur, hy, _hnil, hlast⟩ := h
  dsimp only [PdfInv] at *
  simp only [pdfStep]
  split
  · refine ⟨?_, pageChainOk_nil, by norm_num, fun _ => rfl, ?_⟩
    · intro p hp
      rcases List.mem_append.mp hp with hp | hp
      · exact hpages p hp
      · simp only [List.mem_singleton] at hp
        subst hp
        exact pageChainOk_snoc cur y w hcur hy hlast
    · intro lst hl
      simp at hl
  · next hnb =>
    refine ⟨hpages, pageChainOk_snoc cur y w hcur hy hlast, by dsimp only; omega, ?_, ?_⟩
    · intro hne
      simp at hne
    · intro lst hl
      rw [List.getLast?_concat] at hl
      left
      rw [← Option.some.inj hl]

/-- Folding draws preserves the canvas invariant. -/
theorem pdf_foldl_inv (wls : List String) :
    ∀ st : PdfState, PdfInv st → PdfInv (wls.foldl pdfStep st) := by
  induction wls with
  | nil => intro st h; simpa using h
  | cons l ls ih =>
    intro st h
    rw [List.foldl_cons]
    exact ih _ (pdfStep_inv st l h)

/-- The initial canvas state satisfies the invariant. -/
theorem pdfInit_inv (title : String) : PdfInv (pdfInit title) := by
  show PdfInv ([], [(742, title)], 722)
  refine ⟨?_, ⟨by simp, ?_⟩, by norm_num, ?_, ?_⟩
  · intro p hp
    simp at hp
  · intro d hd
    simp only [List.mem_singleton] at hd
    subst hd
    norm_num
  · intro hne
    simp at hne
  · intro lst hl
    simp only [List.getLast?_singleton, Option.some.injEq] at hl
    subst hl
    right
    exact ⟨rfl, rfl⟩

/-- Every page of the rendered document is well-formed: the cursor steps down
by the fixed line height (after the title gap), and no draw falls below the
bottom margin. -/
theorem save_pdf_pages_ok (title summary : String) :
    ∀ p ∈ save_pdf title summary, PageChainOk p := by
  have hinv : PdfInv ((pySplitNl summary).foldl
      (fun st line => (pyWrap 100 true line).foldl pdfStep st) (pdfInit title)) := by
    have : ∀ (lines : List String) (st : PdfState), PdfInv st →
        PdfInv (lines.foldl (fun st line => (pyWrap 100 true line).foldl pdfStep st) st) := by
      intro lines
      induction lines with
      | nil => intro st h; simpa using h
      | cons l ls ih =>
        intro st h
        rw [List.foldl_cons]
        exact ih _ (pdf_foldl_inv _ st h)
    exact this _ _ (pdfInit_inv title)
  intro p hp
  simp only [save_pdf] at hp
  rcases List.mem_append.mp hp with hp | hp
  · exact hinv.1 p hp
  · split at hp
    · simp at hp
    · simp only [List.mem_singleton] at hp
      subst hp
      exact hinv.2.1

/-- One draw advances the page/cursor bookkeeping by one. -/
theorem pdf_count_step (st : PdfState) (n : Nat) (w : String)
    (h1 : st.1.length = pdfPagesCount n) (h2 : st.2.1.length = pdfCurCount n)
    (h3 : st.2.2 = pdfYAt n) :
    (pdfStep st w).1.length = pdfPagesCount (n + 1) ∧
    (pdfStep st w).2.1.length = pdfCurCount (n + 1) ∧
    (pdfStep st w).2.2 = pdfYAt (n + 1) := by
  obtain ⟨pages, cur, y⟩ := st
  dsimp only at h1 h2 h3
  subst h3
  have h47 : (n - 45) % 47 < 47 := Nat.mod_lt _ (by norm_num)
  simp only [pdfStep]
  split
  · next hbr =>
    unfold pdfYAt at hbr
    refine ⟨?_, ?_, ?_⟩ <;>
      · simp only [List.length_append, List.length_cons, List.length_nil]
        simp only [pdfPagesCount, pdfCurCount, pdfYAt] at *
        split_ifs at * <;> omega
  · next hnb =>
    unfold pdfYAt at hnb
    refine ⟨?_, ?_, ?_⟩ <;>
      · simp only [List.length_append, List.length_cons, List.length_nil]
        simp only [pdfPagesCount, pdfCurCount, pdfYAt] at *
        split_ifs at * <;> omega

/-- Page/cursor bookkeeping after folding a list of draws. -/
theorem pdf_count_foldl (wls : List String) :
    ∀ (st : PdfState) (n : Nat),
      st.1.length = pdfPagesCount n → st.2.1.length = pdfCurCount n → st.2.2 = pdfYAt n →
      (wls.foldl pdfStep st).1.length = pdfPagesCount (n + wls.length) ∧
      (wls.foldl pdfStep st).2.1.length = pdfCurCount (n + wls.length) ∧
      (wls.foldl pdfStep st).2.2 = pdfYAt (n + wls.length) := by
  induction wls with
  | nil =>
    intro st n h1 h2 h3
    simpa using ⟨h1, h2, h3⟩
  | cons wl wls ih =>
    intro st n h1 h2 h3
    rw [List.foldl_cons, List.length_cons]
    obtain ⟨g1, g2, g3⟩ := pdf_count_step st n wl h1 h2 h3
    have hlen : n + (wls.length + 1) = (n + 1) + wls.length := by omega
    rw [hlen]
    exact ih (pdfStep st wl) (n + 1) g1 g2 g3

/-- The nested loops of `save_pdf` are the fold over all wrapped sub-lines. -/
theorem pdf_nested_eq_flat (lines : List String) :
    ∀ st : PdfState,
      lines.foldl (fun st line => (pyWrap 100 true line).foldl pdfStep st) st
        = (lines.flatMap (pyWrap 100 true)).foldl pdfStep st := by
  induction lines with
  | nil => intro st; simp
  | cons l ls ih =>
    intro st
    rw [List.foldl_cons, ih, List.flatMap_cons, List.foldl_append]

/-- A report body with more than 45 rendered lines (one page's capacity below
the title) produces at least two pages. -/
theorem save_pdf_multipage (title summary : String)
    (h : 45 < ((pySplitNl summary).flatMap (pyWrap 100 true)).length) :
    2 ≤ (save_pdf title summary).length := by
  simp only [save_pdf]
  rw [pdf_nested_eq_flat]
  obtain ⟨g1, g2, _g3⟩ := pdf_count_foldl ((pySplitNl summary).flatMap (pyWrap 100 true))
    (pdfInit title) 0 (by simp [pdfInit, pdfPagesCount]) (by simp [pdfInit, pdfCurCount])
    (by simp [pdfInit, pdfYAt])
  rw [Nat.zero_add] at g1 g2
  rw [List.length_append]
  by_cases hc : (((pySplitNl summary).flatMap (pyWrap 100 true)).foldl pdfStep
      (pdfInit title)).2.1.isEmpty = true
  · rw [if_pos hc]
    have hc0 : pdfCurCount ((pySplitNl summary).flatMap (pyWrap 100 true)).length = 0 := by
      rw [← g2, List.isEmpty_iff.mp hc]
      rfl
    rw [g1]
    unfold pdfPagesCount
    unfold pdfCurCount at hc0
    split_ifs at * <;> omega
  · rw [if_neg hc]
    rw [g1]
    simp only [List.length_singleton, pdfPagesCount]
    split_ifs <;> omega

/-- Expanding tabs keeps an all-whitespace list all-whitespace. -/
theorem expandTabs_all_ws (l : List Char) :
    ∀ col, l.all pyWsChar = true → (expandTabs col l).all pyWsChar = true := by
  induction l with
  | nil => intro col h; exact h
  | cons c cs ih =>
    intro col hall
    simp only [List.all_cons, Bool.and_eq_true] at hall
    rw [expandTabs]
    split
    · simp only [List.all_append, Bool.and_eq_true]
      refine ⟨?_, ih _ hall.2⟩
      rw [List.all_eq_true]
      intro x hx
      rw [List.eq_of_mem_replicate hx]
      rfl
    · split
      · simp only [List.all_cons, Bool.and_eq_true]
        exact ⟨hall.1, ih 0 hall.2⟩
      · simp only [List.all_cons, Bool.and_eq_true]
        exact ⟨hall.1, ih _ hall.2⟩

/-- Munging an all-whitespace list yields all spaces. -/
theorem munge_all_space (l : List Char) (h : l.all pyWsChar = true) :
    (munge l).all (· = ' ') = true := by
  unfold munge
  have hexp := expandTabs_all_ws l 0 h
  rw [List.all_eq_true]
  intro x hx
  obtain ⟨c, hc, rfl⟩ := List.mem_map.mp hx
  have hcw := List.all_eq_true.mp hexp c hc
  simp [hcw]

/-- `wsplitGo` on an empty list yields no chunks. -/
theorem wsplitGo_nil (fuel : Nat) (rev : List Char) : wsplitGo fuel rev [] = [] := by
  cases fuel <;> rfl

/-- An all-space list splits into a single whitespace run. -/
theorem wsplit_all_space (l : List Char) (hne : l ≠ []) (h : l.all (· = ' ') = true) :
    wsplit l = [l] := by
  cases l with
  | nil => exact absurd rfl hne
  | cons c cs =>
    have hc : c = ' ' := by
      have := List.all_eq_true.mp h c (List.mem_cons_self c cs)
      simpa using this
    subst hc
    have htake : (' ' :: cs).takeWhile pyWsChar = ' ' :: cs := by
      rw [List.takeWhile_eq_self_iff]
      intro a ha
      have : a = ' ' := by simpa using List.all_eq_true.mp h a ha
      rw [this]
      rfl
    have hdrop : (' ' :: cs).dropWhile pyWsChar = [] := by
      rw [List.dropWhile_eq_nil_iff]
      intro a ha
      have : a = ' ' := by simpa using List.all_eq_true.mp h a ha
      rw [this]
      simp [pyWsChar]
    show wsplitGo ((' ' :: cs).length + 1) [] (' ' :: cs) = [' ' :: cs]
    rw [show (' ' :: cs).length + 1 = (cs.length + 1) + 1 from by simp]
    rw [wsplitGo]
    rw [if_pos (by rfl : pyWsChar ' ' = true)]
    rw [htake, hdrop]
    simp [wsplitGo_nil]

/-- An all-space chunk is blank for the drop-whitespace tests. -/
theorem isBlankTok_of_all_space (t : List Char) (h : t.all (· = ' ') = true) :
    isBlankTok t = true := by
  unfold isBlankTok
  rw [List.all_eq_true]
  intro x hx
  have : x = ' ' := by simpa using List.all_eq_true.mp h x hx
  rw [this]
  rfl

/-- No hyphen is found in a hyphen-free list. -/
theorem rfindHyphen_none (l : List Char) (h : ∀ c ∈ l, ¬ c = '-') :
    rfindHyphen l = none := by
  unfold rfindHyphen
  rw [List.find?_eq_none]
  intro i _
  unfold testNth
  cases hi : l[i]? with
  | none => simp
  | some c =>
    have hc := h c (List.getElem?_mem hi)
    simpa using hc

/-- `wrapGo` with `break_long_words` on turns a single all-space chunk into
no lines at all (splitting and dropping the space run piece by piece). -/
theorem wrapGo_space (width : Nat) (hw : 1 ≤ width) :
    ∀ (fuel : Nat) (t : List Char) (emitted : Bool),
      t.all (· = ' ') = true → toksMeasure [t] < fuel →
      wrapGo true width fuel emitted [t] = [] := by
  intro fuel
  induction fuel with
  | zero =>
    intro t emitted _ hm
    exact absurd hm (by omega)
  | succ fuel ih =>
    intro t emitted hsp hm
    have hblank := isBlankTok_of_all_space t hsp
    rw [wrapGo_succ_eq]
    by_cases he : (emitted && isBlankTok t) = true
    · rw [if_pos he]
      rfl
    · rw [if_neg he]
      by_cases hle : 0 + t.length ≤ width
      · have hgreedy : greedyTake width 0 [t] = ([t], []) := by
          simp only [greedyTake]
          rw [if_pos hle]
        have hstep : wrapStep true width [t] = (none, []) := by
          simp only [wrapStep, hgreedy, longAdjust, trailingDrop]
          simp [hblank]
        simp only [wrapIter, hstep]
        exact wrapGo_nil _ _ _ _
      · have hgreedy : greedyTake width 0 [t] = ([], [t]) := by
          simp only [greedyTake]
          rw [if_neg hle]
        have hlw : longWordEnd t width = width := by
          unfold longWordEnd
          rw [if_pos (by omega : width < t.length)]
          rw [rfindHyphen_none _ ?_]
          intro c hc
          have hc' : c ∈ t := List.mem_of_mem_take hc
          have : c = ' ' := by simpa using List.all_eq_true.mp hsp c hc'
          rw [this]
          simp
        have hstep : wrapStep true width [t]
            = (none, [t.drop width]) := by
          simp only [wrapStep, hgreedy, longAdjust]
          rw [if_pos (by omega : width < t.length)]
          simp only [if_true]
          have hnw : ¬ width < 1 := by omega
          simp only [if_neg hnw, List.map_nil, List.sum_nil, Nat.sub_zero, hlw,
            List.nil_append, trailingDrop, List.getLast?_singleton]
          rw [if_pos (isBlankTok_of_all_space _ (by
            rw [List.all_eq_true]
            intro x hx
            have hxt : x ∈ t := List.mem_of_mem_take hx
            simpa using List.all_eq_true.mp hsp x hxt))]
          simp
        simp only [wrapIter, hstep]
        apply ih
        · rw [List.all_eq_true]
          intro x hx
          have : x ∈ t := List.mem_of_mem_drop hx
          simpa using List.all_eq_true.mp hsp x this
        · unfold toksMeasure at *
          simp only [List.map_cons, List.map_nil, List.sum_cons, List.sum_nil,
            List.length_cons, List.length_nil, List.length_drop] at *
          omega

/-- C10: an input line that is empty or all whitespace wraps to no rendered
lines at all, so it draws nothing and leaves the canvas state (cursor
included) unchanged. -/
theorem c10_blank_line_renders_nothing (line : String)
    (h : line.data.all pyWsChar = true) :
    pyWrap 100 true line = [] ∧
    ∀ st : PdfState, (pyWrap 100 true line).foldl pdfStep st = st := by
  have hwrap : pyWrap 100 true line = [] := by
    unfold pyWrap pyWrapList
    have hm := munge_all_space line.data h
    cases hmn : munge line.data with
    | nil =>
      show (wrapGo true 100 (toksMeasure (wsplit []) + 1) false (wsplit [])).map
        List.asString = []
      rw [show wsplit [] = [] from rfl]
      rw [wrapGo_nil]
      rfl
    | cons c cs =>
      rw [hmn] at hm
      show (wrapGo true 100 (toksMeasure (wsplit (c :: cs)) + 1) false
        (wsplit (c :: cs))).map List.asString = []
      rw [wsplit_all_space (c :: cs) (by simp) hm]
      rw [wrapGo_space 100 (by norm_num) _ (c :: cs) false hm (by omega)]
      rfl
  exact ⟨hwrap, fun st => by rw [hwrap]; rfl⟩

/-- Witness for C10 at a one-space line. -/
theorem c10_blank_line_renders_nothing_witness :
    (" " : String).data.all pyWsChar = true ∧ pyWrap 100 true " " = [] :=
  ⟨by decide, (c10_blank_line_renders_nothing " " (by decide)).1⟩

/-- C6: `save_pdf` re-wraps each newline-delimited line to at most 100
characters per rendered line, renders every wrapped sub-line in original
order after the title with no content dropped, keeps the cursor stepping
down by the fixed line height within each page and never below the bottom
margin, and produces at least two pages once the body exceeds one page's
capacity of 45 lines. -/
theorem c6_save_pdf_renders_all (title summary : String)
    (h : 45 < ((pySplitNl summary).flatMap (pyWrap 100 true)).length) :
    pdfTexts (save_pdf title summary)
      = title :: (pySplitNl summary).flatMap (pyWrap 100 true) ∧
    (∀ line ∈ pySplitNl summary, ∀ wline ∈ pyWrap 100 true line, wline.length ≤ 100) ∧
    (∀ p ∈ save_pdf title summary, PageChainOk p) ∧
    2 ≤ (save_pdf title summary).length :=
  ⟨save_pdf_texts title summary,
    fun line _ => pyWrap_lines_le 100 (by norm_num) line,
    save_pdf_pages_ok title summary,
    save_pdf_multipage title summary h⟩

/-- Witness for C6 at a 46-line report. -/
theorem c6_save_pdf_renders_all_witness :
    45 < ((pySplitNl (List.intercalate ['\n']
        (List.replicate 46 ['a'])).asString).flatMap (pyWrap 100 true)).length ∧
    2 ≤ (save_pdf "T" (List.intercalate ['\n'] (List.replicate 46 ['a'])).asString).length :=
  ⟨by decide,
    (c6_save_pdf_renders_all "T" (List.intercalate ['\n'] (List.replicate 46 ['a'])).asString
      (by decide)).2.2.2⟩

/-- Unfolding lemmas for `wordsCons`. -/
theorem wordsCons_nil (c : Char) (r : List (List Char)) : wordsCons c [] r = [[c]] := rfl

/-- A following whitespace character closes the word at `c` alone. -/
theorem wordsCons_ws (c d : Char) (m' : List Char) (r : List (List Char))
    (hd : pyWsChar d = true) : wordsCons c (d :: m') r = [c] :: r := by
  simp only [wordsCons]
  rw [if_pos hd]

/-- A following non-whitespace character merges `c` into the first word. -/
theorem wordsCons_word (c d : Char) (m' : List Char) (t : List Char) (ts : List (List Char))
    (hd : pyWsChar d = false) : wordsCons c (d :: m') (t :: ts) = (c :: t) :: ts := by
  simp only [wordsCons]
  rw [if_neg (by simp [hd])]

/-- Unfolding for a non-whitespace head of `words`. -/
theorem words_cons_nonws (c : Char) (cs : List Char) (hc : pyWsChar c = false) :
    words (c :: cs) = wordsCons c cs (words cs) := by
  rw [words, if_neg (by simp [hc])]

/-- A whitespace head is skipped by `words`. -/
theorem words_cons_ws (c : Char) (l : List Char) (h : pyWsChar c = true) :
    words (c :: l) = words l := by
  rw [words, if_pos h]

/-- A whitespace run is skipped by `words`. -/
theorem words_ws_append (t l : List Char) (h : t.all pyWsChar = true) :
    words (t ++ l) = words l := by
  induction t with
  | nil => rfl
  | cons c cs ih =>
    simp only [List.all_cons, Bool.and_eq_true] at h
    rw [List.cons_append, words_cons_ws c _ h.1, ih h.2]

/-- Two adjacent non-whitespace characters extend the same word. -/
theorem words_cons_cons_nonws (c d : Char) (m : List Char)
    (hc : pyWsChar c = false) (hd : pyWsChar d = false) :
    ∃ t ts, words (d :: m) = t :: ts ∧ words (c :: d :: m) = (c :: t) :: ts := by
  have hne : ∃ t ts, words (d :: m) = t :: ts := by
    rw [words_cons_nonws d m hd]
    cases m with
    | nil => exact ⟨[d], [], rfl⟩
    | cons e m' =>
      by_cases he : pyWsChar e = true
      · rw [wordsCons_ws d e m' _ he]
        exact ⟨[d], words (e :: m'), rfl⟩
      · cases hw : words (e :: m') with
        | nil =>
          simp only [wordsCons, hw]
          rw [if_neg (by simp [he])]
          exact ⟨[d], [], rfl⟩
        | cons t ts =>
          rw [wordsCons_word d e m' t ts (by simpa using he)]
          exact ⟨d :: t, ts, rfl⟩
  obtain ⟨t, ts, hw⟩ := hne
  refine ⟨t, ts, hw, ?_⟩
  rw [words_cons_nonws c (d :: m) hc, hw, wordsCons_word c d m t ts hd]

/-- A maximal word followed by whitespace (or the end) is one `words` entry. -/
theorem words_word_append (t m : List Char) (hne : t ≠ [])
    (hw : t.all (fun c => !pyWsChar c) = true)
    (hm : m = [] ∨ ∃ d m', m = d :: m' ∧ pyWsChar d = true) :
    words (t ++ m) = t :: words m := by
  induction t with
  | nil => exact absurd rfl hne
  | cons c t' ih =>
    simp only [List.all_cons, Bool.and_eq_true] at hw
    have hc : pyWsChar c = false := by simpa using hw.1
    cases t' with
    | nil =>
      rcases hm with rfl | ⟨d, m', rfl, hd⟩
      · show words [c] = [c] :: words []
        rw [words_cons_nonws c [] hc, wordsCons_nil]
        rfl
      · show words (c :: d :: m') = [c] :: words (d :: m')
        rw [words_cons_nonws c (d :: m') hc, wordsCons_ws c d m' _ hd]
    | cons c2 t'' =>
      have hc2 : pyWsChar c2 = false := by
        have h2 := hw.2
        simp only [List.all_cons, Bool.and_eq_true] at h2
        simpa using h2.1
      have ih' := ih (by simp) hw.2
      obtain ⟨t, ts, h1, h2⟩ := words_cons_cons_nonws c c2 (t'' ++ m) hc hc2
      have hcombine : t :: ts = (c2 :: t'') :: words m := by
        rw [← h1]
        exact ih'
      obtain ⟨rfl, rfl⟩ : t = c2 :: t'' ∧ ts = words m := by
        injection hcombine with ha hb
        exact ⟨ha, hb⟩
      exact h2

/-- Textwrap whitespace is `str` whitespace. -/
theorem pyWs_imp_strWs (c : Char) (h : pyWsChar c = true) : pyStrWsChar c = true := by
  unfold pyStrWsChar
  rw [h]
  rfl

/-- A chunk free of `str` whitespace contains no textwrap whitespace. -/
theorem any_ws_false_of_nonStrWs (t : List Char)
    (h : t.all (fun c => !pyStrWsChar c) = true) : t.any pyWsChar = false := by
  cases hA : t.any pyWsChar
  · rfl
  · exfalso
    rw [List.any_eq_true] at hA
    obtain ⟨x, hx, hpx⟩ := hA
    have hs := List.all_eq_true.mp h x hx
    rw [pyWs_imp_strWs x hpx] at hs
    simp at hs

/-- A nonempty all-space chunk contains whitespace. -/
theorem any_ws_true_of_all_space (t : List Char) (hne : t ≠ [])
    (h : t.all (· = ' ') = true) : t.any pyWsChar = true := by
  cases t with
  | nil => exact absurd rfl hne
  | cons c cs =>
    rw [List.any_eq_true]
    refine ⟨c, List.mem_cons_self c cs, ?_⟩
    have : c = ' ' := by simpa using List.all_eq_true.mp h c (List.mem_cons_self c cs)
    rw [this]
    rfl

/-- An all-space chunk is all textwrap whitespace. -/
theorem all_ws_of_all_space (t : List Char) (h : t.all (· = ' ') = true) :
    t.all pyWsChar = true := by
  rw [List.all_eq_true] at h ⊢
  intro x hx
  have : x = ' ' := by simpa using h x hx
  rw [this]
  rfl

/-- `words` distributes over an inserted space separator. -/
theorem words_append_space (a b : List Char) :
    words (a ++ ' ' :: b) = words a ++ words b := by
  induction a with
  | nil =>
    rw [List.nil_append, words_cons_ws ' ' b rfl]
    rfl
  | cons c a' ih =>
    by_cases hc : pyWsChar c = true
    · rw [List.cons_append, words_cons_ws c _ hc, words_cons_ws c _ hc, ih]
    · have hc' : pyWsChar c = false := by simpa using hc
      cases a' with
      | nil =>
        rw [List.singleton_append]
        rw [words_cons_nonws c (' ' :: b) hc', wordsCons_ws c ' ' b _ rfl,
          words_cons_ws ' ' b rfl]
        rw [words_cons_nonws c [] hc', wordsCons_nil]
        rfl
      | cons d a'' =>
        by_cases hd : pyWsChar d = true
        · rw [List.cons_append, List.cons_append]
          rw [words_cons_nonws c _ hc', wordsCons_ws c d _ _ hd]
          rw [show d :: (a'' ++ ' ' :: b) = (d :: a'') ++ ' ' :: b from rfl, ih]
          rw [words_cons_nonws c (d :: a'') hc', wordsCons_ws c d a'' _ hd]
          rfl
        · have hd' : pyWsChar d = false := by simpa using hd
          obtain ⟨t1, ts1, h1, h2⟩ := words_cons_cons_nonws c d (a'' ++ ' ' :: b) hc' hd'
          obtain ⟨t2, ts2, h3, h4⟩ := words_cons_cons_nonws c d a'' hc' hd'
          rw [List.cons_append, List.cons_append, h2]
          have hcomb : t1 :: ts1 = t2 :: (ts2 ++ words b) := by
            rw [← h1, show d :: (a'' ++ ' ' :: b) = (d :: a'') ++ ' ' :: b from rfl, ih, h3]
            rfl
          obtain ⟨rfl, rfl⟩ : t1 = t2 ∧ ts1 = ts2 ++ words b := by
            injection hcomb with ha hb
            exact ⟨ha, hb⟩
          rw [h4]
          rfl

/-- `words` of a single-space join is the concatenation of the words of the
parts. -/
theorem words_intercalate_space (L : List (List Char)) :
    words (List.intercalate [' '] L) = (L.map words).flatten := by
  induction L with
  | nil => rfl
  | cons l L' ih =>
    cases L' with
    | nil => simp [List.intercalate]
    | cons l2 L'' =>
      have hstep : List.intercalate [' '] (l :: l2 :: L'')
          = l ++ ' ' :: List.intercalate [' '] (l2 :: L'') := by
        simp [List.intercalate]
      rw [hstep, words_append_space, ih]
      simp

/-- Splitting a good chunk list anywhere keeps both halves good. -/
theorem goodToks_append (a b : List (List Char)) (h : GoodToks (a ++ b)) :
    GoodToks a ∧ GoodToks b := by
  obtain ⟨hchain, hmem⟩ := h
  rw [List.chain'_append] at hchain
  exact ⟨⟨hchain.1, fun t ht => hmem t (List.mem_append_left b ht)⟩,
    ⟨hchain.2.1, fun t ht => hmem t (List.mem_append_right a ht)⟩⟩

/-- `wordToks` distributes over append. -/
theorem wordToks_append (a b : List (List Char)) :
    wordToks (a ++ b) = wordToks a ++ wordToks b := by
  unfold wordToks
  rw [List.filter_append]

/-- A whitespace chunk is dropped from `wordToks`. -/
theorem wordToks_cons_ws (t : List Char) (ts : List (List Char))
    (hany : t.any pyWsChar = true) : wordToks (t :: ts) = wordToks ts := by
  unfold wordToks
  rw [List.filter_cons]
  simp [hany]

/-- A word chunk is kept by `wordToks`. -/
theorem wordToks_cons_word (t : List Char) (ts : List (List Char))
    (hany : t.any pyWsChar = false) : wordToks (t :: ts) = t :: wordToks ts := by
  unfold wordToks
  rw [List.filter_cons]
  simp [hany]

/-- The words of the plain join of a good chunk list are its word chunks. -/
theorem words_flatten_goodToks (tl : List (List Char)) (h : GoodToks tl) :
    words tl.flatten = wordToks tl := by
  induction tl with
  | nil => rfl
  | cons t ts ih =>
    obtain ⟨hchain, hmem⟩ := h
    have hts : GoodToks ts := ⟨hchain.tail, fun u hu => hmem u (List.mem_cons_of_mem t hu)⟩
    obtain ⟨htne, hkind⟩ := hmem t (List.mem_cons_self t ts)
    rcases hkind with hsp | hwd
    · rw [List.flatten_cons, words_ws_append t _ (all_ws_of_all_space t hsp), ih hts,
        wordToks_cons_ws t ts (any_ws_true_of_all_space t htne hsp)]
    · have hnws : t.all (fun c => !pyWsChar c) = true := by
        rw [List.all_eq_true] at hwd ⊢
        intro x hx
        have hstr := hwd x hx
        cases hpw : pyWsChar x
        · rfl
        · rw [pyWs_imp_strWs x hpw] at hstr
          simp at hstr
      have hany : t.any pyWsChar = false := any_ws_false_of_nonStrWs t hwd
      cases ts with
      | nil =>
        show words (t ++ [].flatten) = wordToks [t]
        rw [show ([] : List (List Char)).flatten = [] from rfl]
        rw [words_word_append t [] htne hnws (Or.inl rfl)]
        rw [wordToks_cons_word t [] hany]
        rfl
      | cons st ts' =>
        obtain ⟨hrel, _⟩ := List.chain'_cons.mp hchain
        obtain ⟨hsne, hskind⟩ := hmem st (by simp)
        have hs_sp : st.all (· = ' ') = true := by
          rcases hskind with hh | hh
          · exact hh
          · exfalso
            rw [hany, any_ws_false_of_nonStrWs st hh] at hrel
            exact hrel rfl
        obtain ⟨c0, s', rfl⟩ : ∃ c0 s', st = c0 :: s' := by
          cases st with
          | nil => exact absurd rfl hsne
          | cons x xs => exact ⟨x, xs, rfl⟩
        have hc0 : c0 = ' ' := by
          simpa using List.all_eq_true.mp hs_sp c0 (by simp)
        rw [List.flatten_cons]
        rw [words_word_append t _ htne hnws
          (Or.inr ⟨c0, s' ++ ts'.flatten, by rw [List.flatten_cons]; rfl,
            by rw [hc0]; rfl⟩)]
        rw [ih hts, wordToks_cons_word t ((c0 :: s') :: ts') hany]

/-- The hyphen-break test fails when no hyphen precedes. -/
theorem hyphenStop_false (rev s : List Char) (hrev : ∀ c ∈ rev, ¬c = '-') :
    hyphenStop rev s = false := by
  unfold hyphenStop
  cases rev with
  | nil => rfl
  | cons r0 rrest =>
    have h0 : ¬ r0 = '-' := hrev r0 (by simp)
    simp [testNth, h0]

/-- The em-dash test fails when no hyphen follows. -/
theorem emDashAhead_false (rev s : List Char) (hs : ∀ c ∈ s, ¬c = '-') :
    emDashAhead rev s = false := by
  unfold emDashAhead
  cases s with
  | nil => simp [testNth]
  | cons c cs =>
    have h0 : ¬ c = '-' := hs c (by simp)
    simp [testNth, h0]

/-- On hyphen-free text a word chunk stops exactly at whitespace or the end. -/
theorem wordStop_eq (rev s : List Char) (hrev : ∀ c ∈ rev, ¬c = '-')
    (hs : ∀ c ∈ s, ¬c = '-') :
    wordStop rev s = (match s with | [] => true | c :: _ => pyWsChar c) := by
  unfold wordStop
  rw [hyphenStop_false rev s hrev, emDashAhead_false rev s hs]
  cases s <;> simp

/-- The head of a `dropWhile` result falsifies the predicate. -/
theorem dropWhile_head_false (p : Char → Bool) (l : List Char) (d : Char) (r' : List Char)
    (h : l.dropWhile p = d :: r') : p d = false := by
  induction l with
  | nil => simp at h
  | cons c cs ih =>
    rw [List.dropWhile_cons] at h
    split at h
    · exact ih h
    · next hc =>
      obtain ⟨rfl, _⟩ : c = d ∧ cs = r' := by
        injection h with ha hb
        exact ⟨ha, hb⟩
      simpa using hc

/-- On hyphen-free text the word scan consumes the maximal non-whitespace
run. -/
theorem wordScanGo_no_hyphen (s : List Char) :
    ∀ rev acc : List Char, (∀ c ∈ rev, ¬c = '-') → (∀ c ∈ s, ¬c = '-') →
      wordScanGo rev acc s
        = (acc.reverse ++ s.takeWhile (fun c => !pyWsChar c),
           s.dropWhile (fun c => !pyWsChar c)) := by
  induction s with
  | nil =>
    intro rev acc _ _
    simp [wordScanGo]
  | cons c cs ih =>
    intro rev acc hrev hs
    rw [wordScanGo, wordStop_eq rev (c :: cs) hrev hs]
    by_cases hc : pyWsChar c = true
    · rw [if_pos (by simpa using hc)]
      rw [List.takeWhile_cons, List.dropWhile_cons]
      simp [hc]
    · have hc' : pyWsChar c = false := by simpa using hc
      rw [if_neg (by simp [hc'])]
      rw [ih (c :: rev) (c :: acc)
        (by
          intro x hx
          rcases List.mem_cons.mp hx with rfl | hx
          · exact hs x (by simp)
          · exact hrev x hx)
        (fun x hx => hs x (List.mem_cons_of_mem c hx))]
      rw [List.takeWhile_cons, List.dropWhile_cons]
      simp [hc']

/-- The empty chunk list is good. -/
theorem goodToks_nil : GoodToks [] := by
  constructor
  · simp
  · intro t ht
    simp at ht

/-- On munged hyphen-free text, `wsplitGo` produces a good chunk list whose
word chunks are exactly the words of the text, and whose first chunk kind
matches the first character. -/
theorem wsplitGo_spec (fuel : Nat) :
    ∀ s rev : List Char, s.length < fuel →
      (∀ c ∈ s, ¬c = '-') → (∀ c ∈ rev, ¬c = '-') →
      (∀ c ∈ s, pyWsChar c = true → c = ' ') →
      (∀ c ∈ s, pyStrWsChar c = true → pyWsChar c = true) →
      GoodToks (wsplitGo fuel rev s) ∧
      wordToks (wsplitGo fuel rev s) = words s ∧
      (match s with
       | [] => wsplitGo fuel rev s = []
       | c :: _ =>
         ∃ t ts, wsplitGo fuel rev s = t :: ts ∧ t ≠ [] ∧ t.any pyWsChar = pyWsChar c) := by
  induction fuel with
  | zero =>
    intro s rev hlen _ _ _ _
    exact absurd hlen (by omega)
  | succ fuel ih =>
    intro s rev hlen hnh hrev hws hstr
    cases s with
    | nil => exact ⟨goodToks_nil, rfl, rfl⟩
    | cons c cs =>
      by_cases hc : pyWsChar c = true
      · -- whitespace run
        rw [wsplitGo, if_pos (by simpa using hc)]
        have hrun_sub : ∀ x ∈ (c :: cs).takeWhile pyWsChar, x ∈ c :: cs :=
          fun x hx => (List.takeWhile_sublist pyWsChar).subset hx
        have hrest_sub : ∀ x ∈ (c :: cs).dropWhile pyWsChar, x ∈ c :: cs :=
          fun x hx => (List.dropWhile_sublist pyWsChar).subset hx
        have hrun_sp : ((c :: cs).takeWhile pyWsChar).all (· = ' ') = true := by
          rw [List.all_eq_true]
          intro x hx
          have hxw := List.mem_takeWhile_imp hx
          have := hws x (hrun_sub x hx) hxw
          simp [this]
        have hrun_ne : (c :: cs).takeWhile pyWsChar ≠ [] := by
          rw [List.takeWhile_cons, if_pos hc]
          simp
        have hrest_len : ((c :: cs).dropWhile pyWsChar).length < fuel := by
          rw [List.dropWhile_cons, if_pos hc]
          have := (List.dropWhile_sublist pyWsChar (l := cs)).length_le
          simp only [List.length_cons] at hlen
          omega
        obtain ⟨G, W, H⟩ := ih ((c :: cs).dropWhile pyWsChar)
          (((c :: cs).takeWhile pyWsChar).reverse ++ rev) hrest_len
          (fun x hx => hnh x (hrest_sub x hx))
          (by
            intro x hx
            rcases List.mem_append.mp hx with hx | hx
            · exact hnh x (hrun_sub x (List.mem_reverse.mp hx))
            · exact hrev x hx)
          (fun x hx => hws x (hrest_sub x hx))
          (fun x hx => hstr x (hrest_sub x hx))
        have hwords : words (c :: cs)
            = words ((c :: cs).dropWhile pyWsChar) := by
          conv_lhs => rw [← List.takeWhile_append_dropWhile (p := pyWsChar) (l := c :: cs)]
          exact words_ws_append _ _ (all_ws_of_all_space _ hrun_sp)
        refine ⟨?_, ?_, ?_⟩
        · constructor
          · cases hrest : (c :: cs).dropWhile pyWsChar with
            | nil =>
              rw [wsplitGo_nil]
              simp
            | cons d r' =>
              rw [hrest] at H
              obtain ⟨t, ts, heq, htne, hkind⟩ := H
              rw [heq, List.chain'_cons]
              rw [hrest] at G
              rw [heq] at G
              refine ⟨?_, G.1⟩
              rw [hkind, any_ws_true_of_all_space _ hrun_ne hrun_sp]
              have hd := dropWhile_head_false pyWsChar (c :: cs) d r' hrest
              rw [hd]
              simp
          · intro t ht
            rcases List.mem_cons.mp ht with rfl | ht
            · exact ⟨hrun_ne, Or.inl hrun_sp⟩
            · exact G.2 t ht
        · rw [wordToks_cons_ws _ _ (any_ws_true_of_all_space _ hrun_ne hrun_sp), W, hwords]
        · exact ⟨(c :: cs).takeWhile pyWsChar, _, rfl, hrun_ne,
            by rw [any_ws_true_of_all_space _ hrun_ne hrun_sp, hc]⟩
      · -- word chunk
        have hc' : pyWsChar c = false := by simpa using hc
        rw [wsplitGo, if_neg (by simp [hc']),
          if_neg (by rw [emDashAhead_false rev (c :: cs) hnh]; simp)]
        rw [wordScanGo_no_hyphen cs (c :: rev) [c]
          (by
            intro x hx
            rcases List.mem_cons.mp hx with rfl | hx
            · exact hnh x (by simp)
            · exact hrev x hx)
          (fun x hx => hnh x (List.mem_cons_of_mem c hx))]
        dsimp only
        simp only [List.reverse_singleton, List.singleton_append]
        have htok_sub : ∀ x ∈ c :: cs.takeWhile (fun c => !pyWsChar c), x ∈ c :: cs := by
          intro x hx
          rcases List.mem_cons.mp hx with rfl | hx
          · simp
          · exact List.mem_cons_of_mem c ((List.takeWhile_sublist _).subset hx)
        have hrest_sub : ∀ x ∈ cs.dropWhile (fun c => !pyWsChar c), x ∈ c :: cs :=
          fun x hx => List.mem_cons_of_mem c ((List.dropWhile_sublist _).subset hx)
        have htok_nws : (c :: cs.takeWhile (fun c => !pyWsChar c)).all
            (fun c => !pyWsChar c) = true := by
          rw [List.all_eq_true]
          intro x hx
          rcases List.mem_cons.mp hx with rfl | hx
          · simp [hc']
          · have := List.mem_takeWhile_imp hx
            simpa using this
        have htok_word : (c :: cs.takeWhile (fun c => !pyWsChar c)).all
            (fun c => !pyStrWsChar c) = true := by
          rw [List.all_eq_true]
          intro x hx
          have hxw := List.all_eq_true.mp htok_nws x hx
          cases hstrx : pyStrWsChar x
          · rfl
          · exfalso
            have := hstr x (htok_sub x hx) hstrx
            rw [this] at hxw
            simp at hxw
        have hrest_len : (cs.dropWhile (fun c => !pyWsChar c)).length < fuel := by
          have := (List.dropWhile_sublist (fun c => !pyWsChar c) (l := cs)).length_le
          simp only [List.length_cons] at hlen
          omega
        obtain ⟨G, W, H⟩ := ih (cs.dropWhile (fun c => !pyWsChar c))
          ((c :: cs.takeWhile (fun c => !pyWsChar c)).reverse ++ rev) hrest_len
          (fun x hx => hnh x (hrest_sub x hx))
          (by
            intro x hx
            rcases List.mem_append.mp hx with hx | hx
            · exact hnh x (htok_sub x (List.mem_reverse.mp hx))
            · exact hrev x hx)
          (fun x hx => hws x (hrest_sub x hx))
          (fun x hx => hstr x (hrest_sub x hx))
        have htok_any : (c :: cs.takeWhile (fun c => !pyWsChar c)).any pyWsChar = false := by
          cases hA : (c :: cs.takeWhile (fun c => !pyWsChar c)).any pyWsChar
          · rfl
          · exfalso
            rw [List.any_eq_true] at hA
            obtain ⟨x, hx, hpx⟩ := hA
            have := List.all_eq_true.mp htok_nws x hx
            rw [hpx] at this
            simp at this
        have hrest_shape : cs.dropWhile (fun c => !pyWsChar c) = []
            ∨ ∃ d r', cs.dropWhile (fun c => !pyWsChar c) = d :: r' ∧ pyWsChar d = true := by
          cases hrest : cs.dropWhile (fun c => !pyWsChar c) with
          | nil => exact Or.inl rfl
          | cons d r' =>
            have hd := dropWhile_head_false (fun c => !pyWsChar c) cs d r' hrest
            simp only [Bool.not_eq_false'] at hd
            exact Or.inr ⟨d, r', rfl, hd⟩
        have hwords : words (c :: cs)
            = (c :: cs.takeWhile (fun c => !pyWsChar c))
              :: words (cs.dropWhile (fun c => !pyWsChar c)) := by
          conv_lhs => rw [show (c :: cs)
            = (c :: cs.takeWhile (fun c => !pyWsChar c))
              ++ cs.dropWhile (fun c => !pyWsChar c) from by
            rw [List.cons_append, List.takeWhile_append_dropWhile]]
          exact words_word_append _ _ (by simp) htok_nws hrest_shape
        refine ⟨?_, ?_, ?_⟩
        · constructor
          · cases hrest : cs.dropWhile (fun c => !pyWsChar c) with
            | nil =>
              rw [wsplitGo_nil]
              simp
            | cons d r' =>
              rw [hrest] at H
              obtain ⟨t, ts, heq, htne, hkind⟩ := H
              rw [heq, List.chain'_cons]
              rw [hrest] at G
              rw [heq] at G
              refine ⟨?_, G.1⟩
              rw [hkind, htok_any]
              have hd := dropWhile_head_false (fun c => !pyWsChar c) cs d r' hrest
              simp only [Bool.not_eq_false'] at hd
              rw [hd]
              simp
          · intro t ht
            rcases List.mem_cons.mp ht with rfl | ht
            · exact ⟨by simp, Or.inr htok_word⟩
            · exact G.2 t ht
        · rw [wordToks_cons_word _ _ htok_any, W, hwords]
        · exact ⟨c :: cs.takeWhile (fun c => !pyWsChar c), _, rfl, by simp,
            by rw [htok_any, hc']⟩

/-- `wsplit` on munged hyphen-free text: good chunks whose word chunks are
the words of the text. -/
theorem wsplit_spec (s : List Char)
    (h1 : ∀ c ∈ s, ¬c = '-')
    (h2 : ∀ c ∈ s, pyWsChar c = true → c = ' ')
    (h3 : ∀ c ∈ s, pyStrWsChar c = true → pyWsChar c = true) :
    GoodToks (wsplit s) ∧ wordToks (wsplit s) = words s := by
  have h := wsplitGo_spec (s.length + 1) s [] (by omega) h1 (by simp) h2 h3
  exact ⟨h.1, h.2.1⟩

/-- Without tabs, `expandtabs` is the identity. -/
theorem expandTabs_no_tab (l : List Char) (h : ∀ c ∈ l, ¬c = '\t') :
    ∀ col, expandTabs col l = l := by
  induction l with
  | nil => intro col; rfl
  | cons c cs ih =>
    intro col
    rw [expandTabs]
    rw [if_neg (h c (by simp))]
    split
    · rw [ih (fun x hx => h x (List.mem_cons_of_mem c hx)) 0]
    · rw [ih (fun x hx => h x (List.mem_cons_of_mem c hx)) (col + 1)]

/-- Without tabs, munging is the plain whitespace-to-space map. -/
theorem munge_no_tab (l : List Char) (h : ('\t' : Char) ∉ l) :
    munge l = l.map fun c => if pyWsChar c then ' ' else c := by
  unfold munge
  rw [expandTabs_no_tab l (fun c hc hh => h (hh ▸ hc)) 0]

/-- `words` of a non-whitespace head is nonempty. -/
theorem words_nonws_ne_nil (d : Char) (m : List Char) (hd : pyWsChar d = false) :
    ∃ t ts, words (d :: m) = t :: ts := by
  rw [words_cons_nonws d m hd]
  cases m with
  | nil => exact ⟨[d], [], rfl⟩
  | cons e m' =>
    by_cases he : pyWsChar e = true
    · rw [wordsCons_ws d e m' _ he]
      exact ⟨[d], words (e :: m'), rfl⟩
    · cases hw : words (e :: m') with
      | nil =>
        simp only [wordsCons, hw]
        rw [if_neg (by simp [he])]
        exact ⟨[d], [], rfl⟩
      | cons t ts =>
        rw [wordsCons_word d e m' t ts (by simpa using he)]
        exact ⟨d :: t, ts, rfl⟩

/-- The whitespace-to-space map preserves the words of a list. -/
theorem words_map_repl (l : List Char) :
    words (l.map fun c => if pyWsChar c then ' ' else c) = words l := by
  induction l with
  | nil => rfl
  | cons c cs ih =>
    rw [List.map_cons]
    by_cases hc : pyWsChar c = true
    · rw [words_cons_ws _ _ (by rw [if_pos hc]; rfl), ih, words_cons_ws c cs hc]
    · have hc' : pyWsChar c = false := by simpa using hc
      have hfc : (if pyWsChar c then ' ' else c) = c := by rw [if_neg (by simp [hc'])]
      rw [hfc]
      rw [words_cons_nonws c _ (by simpa using hc'), words_cons_nonws c cs hc', ih]
      cases cs with
      | nil => rfl
      | cons d cs' =>
        rw [List.map_cons]
        by_cases hd : pyWsChar d = true
        · rw [wordsCons_ws c _ _ _ (by rw [if_pos hd]; rfl), wordsCons_ws c d cs' _ hd]
        · have hd' : pyWsChar d = false := by simpa using hd
          have hfd : (if pyWsChar d then ' ' else d) = d := by rw [if_neg (by simp [hd'])]
          rw [hfd]
          rfl

/-- `trailingDrop` keeps the line, or drops a blank last chunk. -/
theorem trailingDrop_eq (q1 : List (List Char)) :
    trailingDrop q1 = q1 ∨
      ∃ lst, q1.getLast? = some lst ∧ isBlankTok lst = true ∧
        trailingDrop q1 = q1.dropLast := by
  unfold trailingDrop
  cases hq : q1.getLast? with
  | none => exact Or.inl rfl
  | some lst =>
    dsimp only
    by_cases hb : isBlankTok lst = true
    · rw [if_pos hb]
      exact Or.inr ⟨lst, rfl, hb, rfl⟩
    · rw [if_neg hb]
      exact Or.inl rfl

/-- Measure of a split chunk list. -/
theorem toksMeasure_append (a b : List (List Char)) :
    toksMeasure (a ++ b) = toksMeasure a + toksMeasure b := by
  unfold toksMeasure
  simp only [List.map_append, List.sum_append, List.length_append]
  omega

/-- `trailingDrop` keeps the list good and its word chunks unchanged. -/
theorem trailingDrop_good (q1 : List (List Char)) (hg : GoodToks q1) :
    GoodToks (trailingDrop q1) ∧ wordToks (trailingDrop q1) = wordToks q1 := by
  rcases trailingDrop_eq q1 with h | ⟨lst, hlast, hblank, h⟩
  · rw [h]
    exact ⟨hg, rfl⟩
  · rw [h]
    obtain ⟨l', rfl⟩ : ∃ l', q1 = l' ++ [lst] := by
      have hne : q1 ≠ [] := by
        intro hq
        rw [hq] at hlast
        simp at hlast
      refine ⟨q1.dropLast, ?_⟩
      have := List.dropLast_append_getLast hne
      rw [List.getLast?_eq_getLast q1 hne] at hlast
      rw [Option.some.inj hlast] at this
      exact this.symm
    rw [List.dropLast_concat]
    have hmem : lst ∈ l' ++ [lst] := List.mem_append_right l' (by simp)
    obtain ⟨hlne, hkind⟩ := hg.2 lst hmem
    have hsp : lst.all (· = ' ') = true := by
      rcases hkind with hh | hh
      · exact hh
      · exfalso
        obtain ⟨x, xs, rfl⟩ : ∃ x xs, lst = x :: xs := by
          cases lst with
          | nil => exact absurd rfl hlne
          | cons x xs => exact ⟨x, xs, rfl⟩
        have hx := List.all_eq_true.mp hh x (by simp)
        have hbx := List.all_eq_true.mp hblank x (by simp)
        rw [hbx] at hx
        simp at hx
    refine ⟨(goodToks_append l' [lst] hg).1, ?_⟩
    rw [wordToks_append]
    rw [wordToks_cons_ws lst [] (any_ws_true_of_all_space lst hlne hsp)]
    simp [wordToks]

/-- The emitted line of a `_wrap_chunks` pass carries exactly the word chunks
of the line's chunk list. -/
theorem wrapStep_emit_words (q1 : List (List Char)) (hg : GoodToks q1) :
    (Option.elim (if (trailingDrop q1).isEmpty then (none : Option (List Char))
      else some (trailingDrop q1).flatten) [] words) = wordToks q1 := by
  obtain ⟨hgood, hwt⟩ := trailingDrop_good q1 hg
  by_cases he : (trailingDrop q1).isEmpty = true
  · rw [if_pos he]
    rw [← hwt, List.isEmpty_iff.mp he]
    rfl
  · rw [if_neg he]
    show words (trailingDrop q1).flatten = wordToks q1
    rw [words_flatten_goodToks _ hgood, hwt]

/-- An emitted line made from chunks of total length within the width fits
the width. -/
theorem emit_line_le (width : Nat) (taken : List (List Char))
    (hsum : ((taken.map List.length).sum) ≤ width) :
    ∀ l, (if (trailingDrop taken).isEmpty then (none : Option (List Char))
      else some (trailingDrop taken).flatten) = some l → l.length ≤ width := by
  intro l hl
  split at hl
  · exact absurd hl (by simp)
  · have hleq : l = (trailingDrop taken).flatten := (Option.some.inj hl).symm
    rw [hleq]
    calc (trailingDrop taken).flatten.length
        = ((trailingDrop taken).map List.length).sum := by simp [List.length_flatten]
      _ ≤ (taken.map List.length).sum := trailingDrop_sum_le taken
      _ ≤ width := hsum

/-- One pass of `_wrap_chunks` without `break_long_words` on a good chunk
list: the rest stays good and bounded, the emitted line holds exactly the
word chunks consumed, the line fits the width, and the measure drops. -/
theorem wrapStep_false_spec (width : Nat) (chunks : List (List Char))
    (hne : chunks ≠ []) (hA : GoodToks chunks)
    (hB : ∀ t ∈ chunks, t.all (fun c => !pyStrWsChar c) = true → t.length ≤ width) :
    GoodToks (wrapStep false width chunks).2 ∧
    (∀ t ∈ (wrapStep false width chunks).2,
      t.all (fun c => !pyStrWsChar c) = true → t.length ≤ width) ∧
    Option.elim (wrapStep false width chunks).1 [] words
      ++ wordToks (wrapStep false width chunks).2 = wordToks chunks ∧
    (∀ l, (wrapStep false width chunks).1 = some l → l.length ≤ width) ∧
    toksMeasure (wrapStep false width chunks).2 < toksMeasure chunks := by
  rcases hP : greedyTake width 0 chunks with ⟨taken, rest⟩
  have happ : taken ++ rest = chunks := by
    have h := greedyTake_append width chunks 0
    rw [hP] at h
    exact h
  have hsum0 : taken = [] ∨ ((taken.map List.length).sum) ≤ width := by
    have h := greedyTake_sum width chunks 0
    rw [hP] at h
    dsimp only at h
    rcases h with h | h
    · exact Or.inl h
    · exact Or.inr (by omega)
  have hgood_split := goodToks_append taken rest (by rw [happ]; exact hA)
  have hmeas : toksMeasure taken + toksMeasure rest = toksMeasure chunks := by
    rw [← happ, toksMeasure_append]
  cases rest with
  | nil =>
    have hq : wrapStep false width chunks
        = (if (trailingDrop taken).isEmpty then none
            else some (trailingDrop taken).flatten, ([] : List (List Char))) := by
      simp only [wrapStep, hP, longAdjust]
    rw [hq]
    dsimp only
    have htaken_eq : taken = chunks := by rw [← happ, List.append_nil]
    refine ⟨goodToks_nil, ?_, ?_, ?_, ?_⟩
    · intro u hu
      simp at hu
    · rw [wrapStep_emit_words taken hgood_split.1, htaken_eq]
      simp [wordToks]
    · intro l hl
      have hsum : ((taken.map List.length).sum) ≤ width := by
        rcases hsum0 with h | h
        · rw [h]
          simp
        · exact h
      exact emit_line_le width taken hsum l hl
    · cases chunks with
      | nil => exact absurd rfl hne
      | cons c0 cs0 =>
        unfold toksMeasure
        simp only [List.map_nil, List.sum_nil, List.length_nil, List.map_cons,
          List.sum_cons, List.length_cons]
        omega
  | cons t ts =>
    by_cases hlong : width < t.length
    · have ht_mem : t ∈ chunks := by
        rw [← happ]
        exact List.mem_append_right taken (by simp)
      obtain ⟨htne, htkind⟩ := hA.2 t ht_mem
      have ht_sp : t.all (· = ' ') = true := by
        rcases htkind with h | h
        · exact h
        · exfalso
          have := hB t ht_mem h
          omega
      by_cases hemp : taken.isEmpty = true
      · have htk : taken = [] := List.isEmpty_iff.mp hemp
        subst htk
        have hchunks : chunks = t :: ts := by rw [← happ]; rfl
        have hblank : isBlankTok t = true := isBlankTok_of_all_space t ht_sp
        have htd : trailingDrop [t] = [] := by
          unfold trailingDrop
          rw [List.getLast?_singleton]
          dsimp only
          rw [if_pos hblank]
          rfl
        have hq : wrapStep false width chunks = (none, ts) := by
          simp only [wrapStep, hP, longAdjust]
          rw [if_pos hlong]
          simp only [Bool.false_eq_true, if_false, List.isEmpty_nil, if_true,
            List.nil_append, htd, List.isEmpty_nil]
        rw [hq]
        dsimp only
        have hGts : GoodToks ts := by
          rw [hchunks] at hA
          exact ⟨hA.1.tail, fun u hu => hA.2 u (List.mem_cons_of_mem t hu)⟩
        refine ⟨hGts, ?_, ?_, ?_, ?_⟩
        · intro u hu hw
          exact hB u (by rw [hchunks]; exact List.mem_cons_of_mem t hu) hw
        · rw [hchunks, wordToks_cons_ws t ts (any_ws_true_of_all_space t htne ht_sp)]
          rfl
        · intro l hl
          simp at hl
        · rw [← hmeas]
          unfold toksMeasure
          simp only [List.map_cons, List.sum_cons, List.length_cons, List.map_nil,
            List.sum_nil, List.length_nil]
          omega
      · have hq : wrapStep false width chunks
            = (if (trailingDrop taken).isEmpty then none
                else some (trailingDrop taken).flatten, t :: ts) := by
          simp only [wrapStep, hP, longAdjust]
          rw [if_pos hlong]
          simp only [Bool.false_eq_true, if_false, hemp]
        rw [hq]
        dsimp only
        refine ⟨hgood_split.2, ?_, ?_, ?_, ?_⟩
        · intro u hu hw
          exact hB u (by rw [← happ]; exact List.mem_append_right taken hu) hw
        · rw [wrapStep_emit_words taken hgood_split.1, ← happ, wordToks_append]
        · intro l hl
          have hsum : ((taken.map List.length).sum) ≤ width := by
            rcases hsum0 with h | h
            · exact absurd (by rw [h]; rfl) hemp
            · exact h
          exact emit_line_le width taken hsum l hl
        · have htne2 : taken ≠ [] := fun h => hemp (by rw [h]; rfl)
          obtain ⟨t0, ts0, rfl⟩ : ∃ a b, taken = a :: b := by
            cases taken with
            | nil => exact absurd rfl htne2
            | cons a b => exact ⟨a, b, rfl⟩
          rw [← hmeas]
          unfold toksMeasure
          simp only [List.map_cons, List.sum_cons, List.length_cons]
          omega
    · have htne2 : taken ≠ [] := by
        intro h
        have hch : chunks = t :: ts := by rw [← happ, h]; rfl
        have h1 : (greedyTake width 0 (t :: ts)).1 = [] := by
          rw [← hch, hP, h]
        have := greedyTake_nil_first width 0 t ts h1
        omega
      have hq : wrapStep false width chunks
          = (if (trailingDrop taken).isEmpty then none
              else some (trailingDrop taken).flatten, t :: ts) := by
        simp only [wrapStep, hP, longAdjust]
        rw [if_neg hlong]
      rw [hq]
      dsimp only
      refine ⟨hgood_split.2, ?_, ?_, ?_, ?_⟩
      · intro u hu hw
        exact hB u (by rw [← happ]; exact List.mem_append_right taken hu) hw
      · rw [wrapStep_emit_words taken hgood_split.1, ← happ, wordToks_append]
      · intro l hl
        have hsum : ((taken.map List.length).sum) ≤ width := by
          rcases hsum0 with h | h
          · exact absurd h htne2
          · exact h
        exact emit_line_le width taken hsum l hl
      · obtain ⟨t0, ts0, rfl⟩ : ∃ a b, taken = a :: b := by
          cases taken with
          | nil => exact absurd rfl htne2
          | cons a b => exact ⟨a, b, rfl⟩
        rw [← hmeas]
        unfold toksMeasure
        simp only [List.map_cons, List.sum_cons, List.length_cons]
        omega

/-- One `wrapIter` pass without `break_long_words` on good bounded chunks,
given the induction hypothesis for the remaining fuel: lines fit the width
and the emitted words are exactly the word chunks. -/
theorem wrapIter_false_spec (width fuel : Nat) (emitted : Bool)
    (ih : ∀ (emitted : Bool) (toks : List (List Char)),
      toksMeasure toks < fuel → AltChunks width toks →
      (∀ l ∈ wrapGo false width fuel emitted toks, l.length ≤ width) ∧
      ((wrapGo false width fuel emitted toks).map words).flatten = wordToks toks)
    (chunks : List (List Char)) (hf : toksMeasure chunks ≤ fuel)
    (hAB : AltChunks width chunks) :
    (∀ l ∈ wrapIter false width fuel emitted chunks, l.length ≤ width) ∧
    ((wrapIter false width fuel emitted chunks).map words).flatten
      = wordToks chunks := by
  obtain ⟨hA, hB⟩ := hAB
  cases chunks with
  | nil =>
    constructor
    · intro l h
      simp [wrapIter] at h
    · simp [wrapIter, wordToks]
  | cons c0 cs0 =>
    obtain ⟨hg2, hb2, hw2, hl2, hm2⟩ :=
      wrapStep_false_spec width (c0 :: cs0) (by simp) hA hB
    have hf2 : toksMeasure (wrapStep false width (c0 :: cs0)).2 < fuel :=
      lt_of_lt_of_le hm2 hf
    simp only [wrapIter]
    cases hr : (wrapStep false width (c0 :: cs0)).1 with
    | none =>
      rw [hr] at hw2
      simp only [Option.elim, List.nil_append] at hw2
      obtain ⟨ihle, iheq⟩ := ih emitted _ hf2 ⟨hg2, hb2⟩
      exact ⟨ihle, by rw [iheq]; exact hw2⟩
    | some line =>
      rw [hr] at hw2
      simp only [Option.elim] at hw2
      obtain ⟨ihle, iheq⟩ := ih true _ hf2 ⟨hg2, hb2⟩
      constructor
      · intro l hl
        rcases List.mem_cons.mp hl with rfl | hmem
        · exact hl2 l hr
        · exact ihle l hmem
      · simp only [List.map_cons, List.flatten_cons]
        rw [iheq]
        exact hw2

/-- `_wrap_chunks` without `break_long_words`, on good chunk lists with
every word chunk within the width and enough fuel: every emitted line fits
the width, and the lines' words, concatenated, are exactly the word chunks
of the input. -/
theorem wrapGo_false_spec (width : Nat) :
    ∀ (fuel : Nat) (emitted : Bool) (toks : List (List Char)),
      toksMeasure toks < fuel → AltChunks width toks →
      (∀ l ∈ wrapGo false width fuel emitted toks, l.length ≤ width) ∧
      ((wrapGo false width fuel emitted toks).map words).flatten
        = wordToks toks := by
  intro fuel
  induction fuel with
  | zero =>
    intro emitted toks hf hAB
    omega
  | succ fuel ih =>
    intro emitted toks hf hAB
    obtain ⟨hA, hB⟩ := hAB
    cases toks with
    | nil =>
      rw [wrapGo_nil]
      exact ⟨by intro l h; simp at h, by simp [wordToks]⟩
    | cons t0 ts0 =>
      rw [wrapGo_succ_eq]
      have hmeas_cons : toksMeasure (t0 :: ts0) = t0.length + 1 + toksMeasure ts0 := by
        unfold toksMeasure
        simp only [List.map_cons, List.sum_cons, List.length_cons]
        omega
      by_cases hd : (emitted && isBlankTok t0) = true
      · rw [if_pos hd]
        have hblank : isBlankTok t0 = true := by
          have h := hd
          simp only [Bool.and_eq_true] at h
          exact h.2
        obtain ⟨htne, htkind⟩ := hA.2 t0 (List.mem_cons_self t0 ts0)
        have ht_sp : t0.all (fun c => c = ' ') = true := by
          rcases htkind with h | h
          · simpa using h
          · exfalso
            cases t0 with
            | nil => exact htne rfl
            | cons c rest =>
              have h1 : pyStrWsChar c = true := by
                simp only [isBlankTok, List.all_cons, Bool.and_eq_true] at hblank
                exact hblank.1
              simp only [List.all_cons, Bool.and_eq_true] at h
              rw [h1] at h
              simpa using h.1
        have hGts : GoodToks ts0 :=
          ⟨hA.1.tail, fun u hu => hA.2 u (List.mem_cons_of_mem t0 hu)⟩
        have hBts : ∀ t ∈ ts0, t.all (fun c => !pyStrWsChar c) = true →
            t.length ≤ width :=
          fun u hu => hB u (List.mem_cons_of_mem t0 hu)
        have hfts : toksMeasure ts0 ≤ fuel := by omega
        have hmain := wrapIter_false_spec width fuel emitted ih ts0 hfts ⟨hGts, hBts⟩
        refine ⟨hmain.1, ?_⟩
        rw [hmain.2,
          wordToks_cons_ws t0 ts0 (any_ws_true_of_all_space t0 htne (by simpa using ht_sp))]
      · rw [if_neg hd]
        have hfts : toksMeasure (t0 :: ts0) ≤ fuel := by omega
        exact wrapIter_false_spec width fuel emitted ih (t0 :: ts0) hfts ⟨hA, hB⟩

/-- C1 (amended): for a transcript text longer than the chunk width that
contains no hyphen, no tab and no `str`-whitespace beyond the `textwrap`
whitespace set, with every whitespace-delimited word at most the chunk width
long, the chunking of `summarize_text` (`textwrap.wrap(text, chunk_size,
break_long_words=False)`) yields chunks of length at most the chunk width
whose words, concatenated in order, are exactly the words of the text — so
no word is split across chunks — and re-joining the chunks with single
spaces reconstructs the text modulo whitespace normalization (the word
sequences agree). -/
theorem c1_amended_wrap_words (chunk_size : Nat) (text : String)
    ( _hlen : chunk_size < text.length)
    (hhy : ∀ c ∈ text.data, ¬c = '-')
    (htab : ('\t' : Char) ∉ text.data)
    (hws : ∀ c ∈ text.data, pyStrWsChar c = true → pyWsChar c = true)
    (hwlen : ∀ t ∈ words text.data, t.length ≤ chunk_size) :
    summarizeChunks chunk_size text
        = (pyWrapList chunk_size false text.data).map List.asString ∧
    (∀ chunk ∈ summarizeChunks chunk_size text, chunk.length ≤ chunk_size) ∧
    ((pyWrapList chunk_size false text.data).map words).flatten
        = words text.data ∧
    words (List.intercalate [' '] (pyWrapList chunk_size false text.data))
        = words text.data := by
  have hmap : munge text.data = text.data.map fun c => if pyWsChar c then ' ' else c :=
    munge_no_tab text.data htab
  have hmem : ∀ c ∈ munge text.data, ∃ c0 ∈ text.data,
      c = if pyWsChar c0 then ' ' else c0 := by
    intro c hc
    rw [hmap] at hc
    obtain ⟨c0, hc0, rfl⟩ := List.mem_map.mp hc
    exact ⟨c0, hc0, rfl⟩
  have h1 : ∀ c ∈ munge text.data, ¬c = '-' := by
    intro c hc
    obtain ⟨c0, hc0, hceq⟩ := hmem c hc
    by_cases hws0 : pyWsChar c0 = true
    · rw [hceq, if_pos hws0]
      simp
    · rw [hceq, if_neg hws0]
      exact hhy c0 hc0
  have h2 : ∀ c ∈ munge text.data, pyWsChar c = true → c = ' ' := by
    intro c hc hpc
    obtain ⟨c0, hc0, hceq⟩ := hmem c hc
    by_cases hws0 : pyWsChar c0 = true
    · rw [hceq, if_pos hws0]
    · exfalso
      rw [hceq, if_neg hws0] at hpc
      exact hws0 hpc
  have h3 : ∀ c ∈ munge text.data, pyStrWsChar c = true → pyWsChar c = true := by
    intro c hc hpc
    obtain ⟨c0, hc0, hceq⟩ := hmem c hc
    by_cases hws0 : pyWsChar c0 = true
    · rw [hceq, if_pos hws0]
      decide
    · rw [hceq, if_neg hws0] at hpc ⊢
      exact hws c0 hc0 hpc
  obtain ⟨hGood, hwt⟩ := wsplit_spec (munge text.data) h1 h2 h3
  have hwt2 : wordToks (wsplit (munge text.data)) = words text.data := by
    rw [hwt, hmap, words_map_repl]
  have hbound : ∀ t ∈ wsplit (munge text.data),
      t.all (fun c => !pyStrWsChar c) = true → t.length ≤ chunk_size := by
    intro t ht hall
    have hmemw : t ∈ wordToks (wsplit (munge text.data)) := by
      unfold wordToks
      rw [List.mem_filter]
      refine ⟨ht, ?_⟩
      rw [any_ws_false_of_nonStrWs t hall]
      rfl
    rw [hwt2] at hmemw
    exact hwlen t hmemw
  have hmain := wrapGo_false_spec chunk_size
      (toksMeasure (wsplit (munge text.data)) + 1) false
      (wsplit (munge text.data)) (by omega) ⟨hGood, hbound⟩
  have hpw : pyWrapList chunk_size false text.data
      = wrapGo false chunk_size (toksMeasure (wsplit (munge text.data)) + 1) false
          (wsplit (munge text.data)) := rfl
  refine ⟨rfl, ?_, ?_, ?_⟩
  · intro chunk hc
    simp only [summarizeChunks, pyWrap, List.mem_map] at hc
    obtain ⟨l, hl, rfl⟩ := hc
    have hll := hmain.1 l (by rw [← hpw]; exact hl)
    exact hll
  · rw [hpw, hmain.2, hwt2]
  · rw [words_intercalate_space, hpw, hmain.2, hwt2]

/-- The amended C1 theorem at the concrete text `"aa bb cc"` and chunk
width 5. -/
theorem c1_amended_wrap_words_witness :
    (5 < ("aa bb cc" : String).length ∧
      (∀ c ∈ ("aa bb cc" : String).data, ¬c = '-') ∧
      ('\t' : Char) ∉ ("aa bb cc" : String).data ∧
      (∀ c ∈ ("aa bb cc" : String).data, pyStrWsChar c = true → pyWsChar c = true) ∧
      (∀ t ∈ words ("aa bb cc" : String).data, t.length ≤ 5)) ∧
    summarizeChunks 5 "aa bb cc"
        = (pyWrapList 5 false ("aa bb cc" : String).data).map List.asString ∧
    (∀ chunk ∈ summarizeChunks 5 "aa bb cc", chunk.length ≤ 5) ∧
    ((pyWrapList 5 false ("aa bb cc" : String).data).map words).flatten
        = words ("aa bb cc" : String).data ∧
    words (List.intercalate [' '] (pyWrapList 5 false ("aa bb cc" : String).data))
        = words ("aa bb cc" : String).data :=
  ⟨⟨by decide, by decide, by decide, by decide, by decide⟩,
   c1_amended_wrap_words 5 "aa bb cc" (by decide) (by decide) (by decide)
     (by decide) (by decide)⟩

end YTS
